import Mathlib

/-!
Date-range facet builder (`search/facet/facet_builder_datetime.go`) and
document-identifier query (`search/query/docid.go`)

A shallow embedding of `DateTimeFacetBuilder` and of the operations
`NewDateTimeFacetBuilder`, `AddRange`, `Field`, `Update` and `Result`, and of
`DocIDQuery` with `NewDocIDQuery` and `SetBoost`.

Conventions of the embedding

* Go `int` is `Int`.  Counters only ever grow by one per matching event, so
  the 64-bit wrap-around is out of reach and is not modelled.
* A Go `map[string]V` is an association list `List (String × V)` whose keys
  are pairwise distinct (`keys m` is `Nodup`).  Reading is `getList`, writing
  `m[k] = v` is `setList`.
* Go leaves the enumeration order of `range m` unspecified.  In `Update` the
  loop body for one key touches only that key, so the order cannot be
  observed in the resulting map and the model enumerates the list as stored.
  In `Result` the enumeration is the input of the sort, so it is an explicit
  argument `iter` of `Result`: any listing of the entries of `fb.termsCount`.
  `Result_unique` shows that on reachable states the result is the same for
  every listing.
* A panic of the Go runtime is a value of `Panic`; `Result` returns
  `Except Panic FacetResult`.
* `time.Time` is an instant counted in nanoseconds from January 1 of year 1,
  00:00:00 UTC (the instant `IsZero` tests for), together with a location
  that none of the comparisons look at.
-/

namespace Facets

/-! ## The standard library types the builder uses -/

/-- Go `time.Time`: `ns` is the instant in nanoseconds since January 1, year 1,
00:00:00 UTC; `loc` is the location, which only matters for formatting. -/
structure Time where
  ns : Int
  loc : String
deriving DecidableEq

/-- Go `Time.IsZero`: the instant is January 1, year 1, 00:00:00 UTC. -/
def Time.IsZero (t : Time) : Bool := decide (t.ns = 0)

/-- Go `Time.After`: `t` is strictly later than `u`. -/
def Time.After (t u : Time) : Bool := decide (u.ns < t.ns)

/-- Go `Time.Before`: `t` is strictly earlier than `u`. -/
def Time.Before (t u : Time) : Bool := decide (t.ns < u.ns)

/-- Go `Time.Equal`: same instant, whatever the locations. -/
def Time.Equal (t u : Time) : Bool := decide (t.ns = u.ns)

/-- Seconds between January 1 of year 1 and January 1 of 1970
(`unixToInternal` of package `time`). -/
def unixToInternal : Int := (1969 * 365 + 1969 / 4 - 1969 / 100 + 1969 / 400) * 86400

/-- Go `time.Unix(sec, nsec)`: the local time of the given Unix time. -/
def Time.Unix (sec nsec : Int) : Time :=
  { ns := (unixToInternal + sec) * 1000000000 + nsec, loc := "Local" }

/-- Go `Time.UnixNano`: nanoseconds since January 1, 1970 UTC. -/
def Time.UnixNano (t : Time) : Int := t.ns - unixToInternal * 1000000000

/-- Days from January 1 of year 1 to January 1 of `year`, for `year ≥ 1`. -/
def daysBeforeYear (year : Int) : Int :=
  365 * (year - 1) + (year - 1) / 4 - (year - 1) / 100 + (year - 1) / 400

/-- Leap years of the Gregorian calendar. -/
def isLeap (year : Int) : Bool :=
  decide (year % 4 = 0) && (decide (year % 100 ≠ 0) || decide (year % 400 = 0))

/-- Days from January 1 of `year` to the first day of `month` (1 to 12). -/
def daysBeforeMonth (year : Int) (month : Nat) : Int :=
  ([0, 31, 59, 90, 120, 151, 181, 212, 243, 273, 304, 334] : List Int).getD (month - 1) 0 +
    (if isLeap year && decide (2 < month) then 1 else 0)

/-- Go `time.Date(year, month, day, 0, 0, 0, 0, time.UTC)` for a valid date of
year 1 or later: midnight UTC at the start of the day. -/
def Time.Date (year : Int) (month day : Nat) : Time :=
  { ns := (daysBeforeYear year + daysBeforeMonth year month + ((day : Int) - 1)) *
      86400 * 1000000000
    loc := "UTC" }

/-- The smallest value of a Go `int64`. -/
def minInt64 : Int := -(2 ^ 63)

/-- One past the largest value of a Go `int64`. -/
def maxInt64Succ : Int := 2 ^ 63

/-! ## Collaborators of the builder that live in other packages -/

/-- The two methods of `numeric.PrefixCoded` that `Update` calls.  Package
`numeric` is not part of the modelled sources, so both are parameters:
`Shift term` is `some s` when `PrefixCoded(term).Shift()` returns `s` without
error, and `Int64 term` is `some i` when `PrefixCoded(term).Int64()` returns
`i` without error. -/
structure PrefixCoded where
  Shift : String → Option Nat
  Int64 : String → Option Int

/-- The decoder returns Go `int64` values. -/
def PrefixCoded.InRange (pc : PrefixCoded) : Prop :=
  ∀ term i, pc.Int64 term = some i → minInt64 ≤ i ∧ i < maxInt64Succ

/-- Modelled from the spec: `search.DateRangeFacet`, the entry type of the
result list, declared in package `search` outside the modelled sources.  The
spec lists the entry as `name, count, start?, end?`; the optional texts are
the `*string` fields that `Result` sets. -/
structure DateRangeFacet where
  Name : String
  Start : Option String
  End : Option String
  Count : Int
deriving DecidableEq

/-- Modelled from the spec: `search.FacetResult`, declared in package `search`
outside the modelled sources: field name, `total`, `missing`, the ordered list
of entries and `other`. -/
structure FacetResult where
  Field : String
  Total : Int
  Missing : Int
  Other : Int
  DateRanges : List DateRangeFacet
deriving DecidableEq

/-- Go `<` on the code points of two strings, first difference decides and a
proper prefix is smaller.  Go compares the bytes of the strings; on UTF-8 text
that is the order of the code points. -/
def codePointsLess : List Char → List Char → Bool
  | _, [] => false
  | [], _ :: _ => true
  | c :: cs, d :: ds =>
    if c.toNat < d.toNat then true
    else if d.toNat < c.toNat then false
    else codePointsLess cs ds

/-- Go `s < t` on strings. -/
def stringLess (s t : String) : Bool := codePointsLess s.toList t.toList

/-- Modelled from the spec: `DateRangeFacets.Less`, the order `sort.Sort` is
given for the result list; the method is declared in package `search` outside
the modelled sources.  The spec: "Sort candidates by count descending", with
"a deterministic secondary key (e.g., name ascending)" for equal counts: a
larger count comes first, and of two equal counts the smaller name. -/
def DateRangeFacets.Less (a b : DateRangeFacet) : Bool :=
  if a.Count = b.Count then stringLess a.Name b.Name else decide (b.Count < a.Count)

/-- The contract of Go `sort.Sort` for the order `DateRangeFacets.Less`: the
outcome is a rearrangement of the input in which no later element is `Less`
than an earlier one.  Nothing is assumed about the algorithm. -/
def IsSort (sort : List DateRangeFacet → List DateRangeFacet) : Prop :=
  ∀ l, (sort l).Perm l ∧
    (sort l).Pairwise (fun a b => DateRangeFacets.Less b a = false)

/-- The inner loop of Go `insertionSort`, on the sorted prefix held back to
front: the new element `x` moves towards the front of the slice past every
neighbour `y` with `Less x y`, and stops at the first one it is not `Less`
than. -/
def insertBack (x : DateRangeFacet) : List DateRangeFacet → List DateRangeFacet
  | [] => [x]
  | y :: ys =>
    if DateRangeFacets.Less x y then y :: insertBack x ys else x :: y :: ys

/-- Go `insertionSort`, the algorithm `sort.Sort` runs on short slices: the
elements are taken from left to right and each is moved back into the sorted
prefix.  A concrete sort that meets `IsSort`. -/
def insertionSort (l : List DateRangeFacet) : List DateRangeFacet :=
  (l.foldl (fun prefixRev x => insertBack x prefixRev) []).reverse

/-! ## Go maps as association lists -/

/-- The keys of a map, in stored order. -/
def keys {V : Type} (m : List (String × V)) : List String := m.map Prod.fst

/-- Go `v, ok := m[k]`. -/
def getList {V : Type} (k : String) : List (String × V) → Option V
  | [] => none
  | (k', v') :: rest => if k' = k then some v' else getList k rest

/-- Go `m[k] = v`: overwrite the entry of `k`, or add one. -/
def setList {V : Type} (k : String) (v : V) : List (String × V) → List (String × V)
  | [] => [(k, v)]
  | (k', v') :: rest =>
    if k' = k then (k, v) :: rest else (k', v') :: setList k v rest

/-! ## The builder -/

/-- Go `dateTimeRange`; the zero `Time` stands for an unbounded end. -/
structure dateTimeRange where
  start : Time
  end_ : Time
deriving DecidableEq

/-- Go `DateTimeFacetBuilder`. -/
structure DateTimeFacetBuilder where
  size : Int
  field : String
  termsCount : List (String × Int)
  total : Int
  missing : Int
  ranges : List (String × dateTimeRange)
deriving DecidableEq

/-- The maps of the state are Go maps: no key is stored twice. -/
def DateTimeFacetBuilder.WF (fb : DateTimeFacetBuilder) : Prop :=
  (keys fb.termsCount).Nodup ∧ (keys fb.ranges).Nodup

instance (fb : DateTimeFacetBuilder) : Decidable fb.WF := by
  unfold DateTimeFacetBuilder.WF; infer_instance

/-- Go `NewDateTimeFacetBuilder`. -/
def NewDateTimeFacetBuilder (field : String) (size : Int) : DateTimeFacetBuilder :=
  { size := size, field := field, termsCount := [], total := 0, missing := 0, ranges := [] }

/-- Go `AddRange`. -/
def AddRange (fb : DateTimeFacetBuilder) (name : String) (start end_ : Time) :
    DateTimeFacetBuilder :=
  let r : dateTimeRange := { start := start, end_ := end_ }
  { fb with ranges := setList name r fb.ranges }

/-- Go `Field`. -/
def Field (fb : DateTimeFacetBuilder) : String := fb.field

/-- The condition of line 76: the test of one instant against one range. -/
def rangeMatches (r : dateTimeRange) (t : Time) : Bool :=
  (r.start.IsZero || t.After r.start || t.Equal r.start) && (r.end_.IsZero || t.Before r.end_)

/-- Lines 78-84: one more match for `rangeName`. -/
def countMatch (fb : DateTimeFacetBuilder) (rangeName : String) : DateTimeFacetBuilder :=
  let termsCount :=
    match getList rangeName fb.termsCount with
    | some existingCount => setList rangeName (existingCount + 1) fb.termsCount
    | none => setList rangeName 1 fb.termsCount
  { fb with termsCount := termsCount, total := fb.total + 1 }

/-- Lines 74-86: `for rangeName, r := range fb.ranges`, over the entries still
to visit. -/
def rangeLoop (t : Time) : List (String × dateTimeRange) → DateTimeFacetBuilder →
    DateTimeFacetBuilder
  | [], fb => fb
  | (rangeName, r) :: rest, fb =>
    rangeLoop t rest (if rangeMatches r t then countMatch fb rangeName else fb)

/-- Lines 66-88: the body of the loop over the terms of the field. -/
def termStep (pc : PrefixCoded) (fb : DateTimeFacetBuilder) (term : String) :
    DateTimeFacetBuilder :=
  match pc.Shift term with
  | some shift =>
    if shift = 0 then
      match pc.Int64 term with
      | some i64 => rangeLoop (Time.Unix 0 i64) fb.ranges fb
      | none => fb
    else fb
  | none => fb

/-- Lines 64-89: `for _, term := range terms`. -/
def termLoop (pc : PrefixCoded) : List String → DateTimeFacetBuilder → DateTimeFacetBuilder
  | [], fb => fb
  | term :: rest, fb => termLoop pc rest (termStep pc fb term)

/-- Go `Update`.  `ft` is the `index.FieldTerms` map of one document, read
only through `ft[fb.field]`: `none` when the key is absent. -/
def Update (pc : PrefixCoded) (fb : DateTimeFacetBuilder)
    (ft : String → Option (List String)) : DateTimeFacetBuilder :=
  match ft fb.field with
  | some terms => termLoop pc terms fb
  | none => { fb with missing := fb.missing + 1 }

/-- The ways `Result` can panic. -/
inductive Panic where
  | nilDereference
  | sliceBoundsOutOfRange
deriving DecidableEq

/-- Lines 104-119: one candidate per visited entry of `termsCount`; the range
is looked up and dereferenced, which panics when the name has no range. -/
def candidates (Format : Time → String) (ranges : List (String × dateTimeRange)) :
    List (String × Int) → Except Panic (List DateRangeFacet)
  | [] => .ok []
  | (term, count) :: rest =>
    match getList term ranges with
    | none => .error Panic.nilDereference
    | some dateRange =>
      match candidates Format ranges rest with
      | .error e => .error e
      | .ok tl =>
        .ok ({ Name := term
               Start := if dateRange.start.IsZero then none else some (Format dateRange.start)
               End := if dateRange.end_.IsZero then none else some (Format dateRange.end_)
               Count := count } :: tl)

/-- Lines 128-131: the sum of the counts of the retained entries. -/
def notOther (l : List DateRangeFacet) : Int := (l.map (fun nr => nr.Count)).sum

/-- Go `Result`.  `Format` is `Time.Format(time.RFC3339Nano)`, `sort` is
`sort.Sort` with `DateRangeFacets.Less`, and `iter` is the order in which
`range fb.termsCount` enumerates the entries of the map. -/
def Result (Format : Time → String) (sort : List DateRangeFacet → List DateRangeFacet)
    (fb : DateTimeFacetBuilder) (iter : List (String × Int)) : Except Panic FacetResult :=
  match candidates Format fb.ranges iter with
  | .error e => .error e
  | .ok cands =>
    let sorted := sort cands
    if fb.size < (sorted.length : Int) then
      if fb.size < 0 then .error Panic.sliceBoundsOutOfRange
      else
        let kept := sorted.take fb.size.toNat
        .ok { Field := fb.field, Total := fb.total, Missing := fb.missing,
              Other := fb.total - notOther kept, DateRanges := kept }
    else
      .ok { Field := fb.field, Total := fb.total, Missing := fb.missing,
            Other := fb.total - notOther sorted, DateRanges := sorted }

/-- The states a caller can build: `NewDateTimeFacetBuilder`, then any
sequence of `AddRange` and `Update` calls. -/
inductive Reachable (pc : PrefixCoded) : DateTimeFacetBuilder → Prop
  | new (field : String) (size : Int) : Reachable pc (NewDateTimeFacetBuilder field size)
  | addRange {fb : DateTimeFacetBuilder} (name : String) (start end_ : Time) :
      Reachable pc fb → Reachable pc (AddRange fb name start end_)
  | update {fb : DateTimeFacetBuilder} (ft : String → Option (List String)) :
      Reachable pc fb → Reachable pc (Update pc fb ft)

deriving instance DecidableEq for Except

/-! ## The vocabulary of the specification -/

/-- An eligible value and its instant: the term decodes, at shift 0, to the
instant `time.Unix(0, i64)`; every other term gives `none`. -/
def decodeInstant (pc : PrefixCoded) (term : String) : Option Time :=
  match pc.Shift term, pc.Int64 term with
  | some 0, some i64 => some (Time.Unix 0 i64)
  | _, _ => none

/-- The instants of the eligible values of a document, one per value. -/
def eligibleInstants (pc : PrefixCoded) (terms : List String) : List Time :=
  terms.filterMap (decodeInstant pc)

/-- The half-open interval of the specification: `start` unbounded or
`t ≥ start`, and `end` unbounded or `t < end`; the zero instant is the
unbounded sentinel. -/
def inRange (r : dateTimeRange) (t : Time) : Prop :=
  (r.start.ns = 0 ∨ r.start.ns ≤ t.ns) ∧ (r.end_.ns = 0 ∨ t.ns < r.end_.ns)

instance (r : dateTimeRange) (t : Time) : Decidable (inRange r t) := by
  unfold inRange; infer_instance

/-- The number of eligible values of a document whose instant lies in `r`. -/
def matchCount (pc : PrefixCoded) (terms : List String) (r : dateTimeRange) : Nat :=
  (eligibleInstants pc terms).countP (fun t => decide (inRange r t))

/-- A value is eligible when it decodes at shift 0. -/
def isEligible (pc : PrefixCoded) (term : String) : Bool := (decodeInstant pc term).isSome

/-- The document with every ineligible value removed (each field keeps its
eligible values, in order). -/
def dropIneligible (pc : PrefixCoded) (ft : String → Option (List String)) :
    String → Option (List String) :=
  fun f => (ft f).map (List.filter (isEligible pc))

/-- The count of a range as a Go map read: zero when nothing is stored. -/
def countOf (fb : DateTimeFacetBuilder) (name : String) : Int :=
  (getList name fb.termsCount).getD 0

/-- The number of registered ranges with a count above zero. -/
def numMatched (fb : DateTimeFacetBuilder) : Nat :=
  (fb.ranges.filter (fun p => decide (0 < countOf fb p.1))).length

/-- The facts that hold of every state a caller can build: the maps are Go
maps, every counted name is a registered range, every stored count is at
least one, and `total` is the sum of the stored counts. -/
def Inv (fb : DateTimeFacetBuilder) : Prop :=
  fb.WF ∧ (∀ k ∈ keys fb.termsCount, k ∈ keys fb.ranges) ∧
    (∀ p ∈ fb.termsCount, 1 ≤ p.2) ∧ fb.total = (fb.termsCount.map Prod.snd).sum


/-- The candidate `Result` builds for one entry of `termsCount`, when the name
of the entry is registered. -/
def candidateOf (Format : Time → String) (ranges : List (String × dateTimeRange))
    (p : String × Int) : Option DateRangeFacet :=
  (getList p.1 ranges).map (fun dateRange =>
    { Name := p.1
      Start := if dateRange.start.IsZero then none else some (Format dateRange.start)
      End := if dateRange.end_.IsZero then none else some (Format dateRange.end_)
      Count := p.2 })

/-- Lines 104-119 in state-passing form: the receiver `fb` is carried through
the loop next to the list built so far; one pass reads `fb.ranges[term]`,
panics when there is no range, and otherwise appends one entry. -/
def candidatesCall (Format : Time → String) :
    DateTimeFacetBuilder → List DateRangeFacet → List (String × Int) →
      DateTimeFacetBuilder × Except Panic (List DateRangeFacet)
  | fb, built, [] => (fb, .ok built)
  | fb, built, (term, count) :: rest =>
    match getList term fb.ranges with
    | none => (fb, .error Panic.nilDereference)
    | some dateRange =>
      candidatesCall Format fb
        (built ++ [{ Name := term
                     Start := if dateRange.start.IsZero then none
                              else some (Format dateRange.start)
                     End := if dateRange.end_.IsZero then none
                            else some (Format dateRange.end_)
                     Count := count }]) rest

/-- Go `Result` as a call on the builder, in state-passing form: the builder
the call leaves behind, and what it returns or how it panics. -/
def ResultCall (Format : Time → String) (sort : List DateRangeFacet → List DateRangeFacet)
    (fb : DateTimeFacetBuilder) (iter : List (String × Int)) :
    DateTimeFacetBuilder × Except Panic FacetResult :=
  match candidatesCall Format fb [] iter with
  | (fb1, .error e) => (fb1, .error e)
  | (fb1, .ok cands) =>
    let sorted := sort cands
    if fb1.size < (sorted.length : Int) then
      if fb1.size < 0 then (fb1, .error Panic.sliceBoundsOutOfRange)
      else
        let kept := sorted.take fb1.size.toNat
        (fb1, .ok { Field := fb1.field, Total := fb1.total, Missing := fb1.missing,
                    Other := fb1.total - notOther kept, DateRanges := kept })
    else
      (fb1, .ok { Field := fb1.field, Total := fb1.total, Missing := fb1.missing,
                  Other := fb1.total - notOther sorted, DateRanges := sorted })

/-- A sequence of documents fed to the builder, one `Update` call each. -/
def runDocs (pc : PrefixCoded) (fb : DateTimeFacetBuilder)
    (docs : List (String → Option (List String))) : DateTimeFacetBuilder :=
  docs.foldl (Update pc) fb

/-- A sequence of `AddRange` calls, one per `(name, start, end)`. -/
def registerAll (fb : DateTimeFacetBuilder) (rs : List (String × Time × Time)) :
    DateTimeFacetBuilder :=
  rs.foldl (fun b r => AddRange b r.1 r.2.1 r.2.2) fb

/-- A builder as a request sets it up: constructed, then its ranges
registered. -/
def configure (field : String) (size : Int) (rs : List (String × Time × Time)) :
    DateTimeFacetBuilder :=
  registerAll (NewDateTimeFacetBuilder field size) rs

/-- What one document adds to the count of `name`: the number of its eligible
values in the range registered under `name`. -/
def docIncrement (pc : PrefixCoded) (field : String) (ranges : List (String × dateTimeRange))
    (name : String) (ft : String → Option (List String)) : Int :=
  match ft field, getList name ranges with
  | some terms, some r => (matchCount pc terms r : Int)
  | _, _ => 0

/-- What one document adds to `total`. -/
def docTotal (pc : PrefixCoded) (field : String) (ranges : List (String × dateTimeRange))
    (ft : String → Option (List String)) : Int :=
  match ft field with
  | some terms => (ranges.map (fun p => (matchCount pc terms p.2 : Int))).sum
  | none => 0

/-- What one document adds to `missing`. -/
def docMissing (field : String) (ft : String → Option (List String)) : Int :=
  match ft field with
  | some _ => 0
  | none => 1

/-- The entrywise sum of two count maps: every name of either map, with the
sum of its two counts (an absent count is zero). -/
def mergeCounts (a b : List (String × Int)) : List (String × Int) :=
  b.foldl (fun acc p => setList p.1 ((getList p.1 acc).getD 0 + p.2) acc) a

/-- The merge of the specification for builders with the same ranges, field
and size: per-range counts, `total` and `missing` are summed. -/
def merge (x y : DateTimeFacetBuilder) : DateTimeFacetBuilder :=
  { x with termsCount := mergeCounts x.termsCount y.termsCount
           total := x.total + y.total
           missing := x.missing + y.missing }

/-! ## Sample data for worked instances -/

/-- A decoder for worked instances: `"bad"` does not decode, `"coarse"` is a
value at shift 4, `"t5"` and `"t10"` are shift-0 values of 5 and 10
nanoseconds after the Unix epoch, and any other term is the shift-0 value 0. -/
def sampleCodec : PrefixCoded where
  Shift := fun term => if term = "bad" then none else if term = "coarse" then some 4 else some 0
  Int64 := fun term =>
    if term = "bad" then none else if term = "t5" then some 5
    else if term = "t10" then some 10 else some 0

/-- The unbounded sentinel. -/
def zeroTime : Time := { ns := 0, loc := "UTC" }

/-- A builder with two adjacent ranges that meet 10 ns after the Unix epoch. -/
def sampleBuilder : DateTimeFacetBuilder :=
  AddRange (AddRange (NewDateTimeFacetBuilder "date" 2) "old" zeroTime (Time.Unix 0 10))
    "new" (Time.Unix 0 10) zeroTime

/-- A document whose field `date` has four values, two of them eligible. -/
def sampleDoc : String → Option (List String) :=
  fun f => if f = "date" then some ["t5", "bad", "t10", "coarse"] else none

/-- A document without the field `date`. -/
def sampleDocOther : String → Option (List String) :=
  fun f => if f = "title" then some ["t5"] else none

/-- A stand-in for `Time.Format` in worked instances: it prints the location
only. -/
def sampleFormat (t : Time) : String := t.loc

/-- The sample builder after the sample document: `old` and `new` both have
count 1 and `total` is 2. -/
def sampleState : DateTimeFacetBuilder := Update sampleCodec sampleBuilder sampleDoc

/-- A fresh builder whose size is negative. -/
def negativeSizeBuilder : DateTimeFacetBuilder := NewDateTimeFacetBuilder "date" (-1)

/-- A fresh builder of size 0 with the two sample ranges, after the sample
document. -/
def sizeZeroState : DateTimeFacetBuilder :=
  Update sampleCodec
    (AddRange (AddRange (NewDateTimeFacetBuilder "date" 0) "old" zeroTime (Time.Unix 0 10))
      "new" (Time.Unix 0 10) zeroTime) sampleDoc

/-- The sample state after `old` is registered again, now as a range whose
start (20 ns) lies after its end (10 ns): the count of `old` stays. -/
def overwrittenState : DateTimeFacetBuilder :=
  AddRange sampleState "old" (Time.Unix 0 20) (Time.Unix 0 10)

/-- A builder of negative size that has ranges and counts. -/
def negativeSizeState : DateTimeFacetBuilder :=
  Update sampleCodec
    (AddRange (AddRange (NewDateTimeFacetBuilder "date" (-3)) "old" zeroTime (Time.Unix 0 10))
      "new" (Time.Unix 0 10) zeroTime) sampleDoc

/-- A builder with one range open on both sides. -/
def openRangeBuilder : DateTimeFacetBuilder :=
  AddRange (NewDateTimeFacetBuilder "date" 2) "all" zeroTime zeroTime

/-- The builder of the worked scenario of the specification: size `N`, range
`old` up to 2020-01-01T00:00:00Z and range `new` from that instant on. -/
def scenarioBuilder (field : String) (N : Int) : DateTimeFacetBuilder :=
  AddRange (AddRange (NewDateTimeFacetBuilder field N) "old" zeroTime (Time.Date 2020 1 1))
    "new" (Time.Date 2020 1 1) zeroTime

/-- A state of the scenario builder: the ranges of `scenarioBuilder` with the
given counts, `total` and `missing`. -/
def scenarioState (field : String) (N : Int) (termsCount : List (String × Int))
    (total missing : Int) : DateTimeFacetBuilder :=
  { size := N, field := field, termsCount := termsCount, total := total, missing := missing,
    ranges := (scenarioBuilder field N).ranges }

/-- A decoder for the scenario: a term that spells one of the three dates is
the shift-0 value of that date, any other term does not decode. -/
def scenarioCodec : PrefixCoded where
  Shift := fun _ => some 0
  Int64 := fun term =>
    if term = "2019-05-01" then some (Time.Date 2019 5 1).UnixNano
    else if term = "2020-06-01" then some (Time.Date 2020 6 1).UnixNano
    else if term = "2020-07-01" then some (Time.Date 2020 7 1).UnixNano
    else none

/-- A document whose field `date` has the single value `v`. -/
def dateDoc (v : String) : String → Option (List String) :=
  fun f => if f = "date" then some [v] else none

end Facets

/-! ## The document-identifier query (`search/query/docid.go`) -/

namespace Query

/-- Go `DocIDQuery`.  `B` is the type `Boost`, declared in package `query`
outside the modelled sources; a nil `*Boost` is `none`. -/
structure DocIDQuery (B : Type) where
  IDs : List String
  Boost : Option B

/-- Go `NewDocIDQuery`. -/
def NewDocIDQuery {B : Type} (ids : List String) : DocIDQuery B :=
  { IDs := ids, Boost := none }

/-- Go `SetBoost`.  `toBoost` is the conversion `Boost(b)` from `float64` to
the type `Boost`; the query afterwards points to the converted value. -/
def DocIDQuery.SetBoost {B : Type} (toBoost : Float → B) (q : DocIDQuery B) (b : Float) :
    DocIDQuery B :=
  let boost := toBoost b
  { q with Boost := some boost }

end Query

namespace Facets

/-! ## Basic facts about the map operations -/

theorem getList_setList_self {V : Type} (k : String) (v : V) (m : List (String × V)) :
    getList k (setList k v m) = some v := by
  induction m with
  | nil => simp [setList, getList]
  | cons p rest ih =>
    obtain ⟨k', v'⟩ := p
    by_cases h : k' = k
    · simp [setList, getList, h]
    · simp [setList, getList, h, ih]

theorem getList_setList_other {V : Type} (k k0 : String) (v : V) (m : List (String × V))
    (h0 : k0 ≠ k) : getList k0 (setList k v m) = getList k0 m := by
  induction m with
  | nil => simp [setList, getList, h0.symm]
  | cons p rest ih =>
    obtain ⟨k', v'⟩ := p
    by_cases h : k' = k
    · subst h
      simp [setList, getList, h0.symm]
    · by_cases h1 : k' = k0
      · subst h1
        simp [setList, getList, h]
      · simp [setList, getList, h, h1, ih]

theorem mem_keys_setList {V : Type} (k k0 : String) (v : V) (m : List (String × V)) :
    k0 ∈ keys (setList k v m) ↔ k0 = k ∨ k0 ∈ keys m := by
  induction m with
  | nil => simp [setList, keys]
  | cons p rest ih =>
    obtain ⟨k', v'⟩ := p
    by_cases h : k' = k
    · subst h
      simp [setList, keys]
    · simp only [keys] at ih
      simp only [setList, h, if_false, keys, List.map_cons, List.mem_cons, ih]
      tauto

theorem nodup_keys_setList {V : Type} (k : String) (v : V) (m : List (String × V))
    (hm : (keys m).Nodup) : (keys (setList k v m)).Nodup := by
  induction m with
  | nil => simp [setList, keys]
  | cons p rest ih =>
    obtain ⟨k', v'⟩ := p
    have hm2 : k' ∉ keys rest ∧ (keys rest).Nodup := by
      simpa [keys] using hm
    by_cases h : k' = k
    · subst h
      simpa [setList, keys] using hm
    · have hnot : k' ∉ keys (setList k v rest) := by
        rw [mem_keys_setList]
        rintro (e | e)
        · exact h e
        · exact hm2.1 e
      have hrec := ih hm2.2
      simp only [setList, h, if_false]
      show (k' :: keys (setList k v rest)).Nodup
      exact List.nodup_cons.2 ⟨hnot, hrec⟩

theorem mem_setList {V : Type} (k : String) (v : V) (m : List (String × V))
    (p : String × V) (hp : p ∈ setList k v m) : p = (k, v) ∨ p ∈ m := by
  induction m with
  | nil => simpa [setList] using hp
  | cons q rest ih =>
    obtain ⟨k', v'⟩ := q
    by_cases h : k' = k
    · simp only [setList, h, if_true, List.mem_cons] at hp
      rcases hp with e | e
      · exact Or.inl e
      · exact Or.inr (List.mem_cons_of_mem _ e)
    · simp only [setList, h, if_false, List.mem_cons] at hp
      rcases hp with e | e
      · exact Or.inr (e ▸ List.mem_cons_self _ _)
      · rcases ih e with e2 | e2
        · exact Or.inl e2
        · exact Or.inr (List.mem_cons_of_mem _ e2)

theorem sum_setList (k : String) (v : Int) (m : List (String × Int)) :
    ((setList k v m).map Prod.snd).sum =
      (m.map Prod.snd).sum - (getList k m).getD 0 + v := by
  induction m with
  | nil => simp [setList, getList]
  | cons p rest ih =>
    obtain ⟨k', v'⟩ := p
    by_cases h : k' = k
    · simp only [setList, getList, h, if_true, List.map_cons, List.sum_cons, Option.getD_some]
      ring
    · simp only [setList, getList, h, if_false, List.map_cons, List.sum_cons, ih]
      ring

theorem getList_mem {V : Type} (k : String) (v : V) (m : List (String × V))
    (h : getList k m = some v) : (k, v) ∈ m := by
  induction m with
  | nil => simp [getList] at h
  | cons p rest ih =>
    obtain ⟨k', v'⟩ := p
    by_cases hk : k' = k
    · simp only [getList, hk, if_true, Option.some.injEq] at h
      simp [hk, h]
    · simp only [getList, hk, if_false] at h
      exact List.mem_cons_of_mem _ (ih h)

theorem getList_of_mem {V : Type} (k : String) (v : V) (m : List (String × V))
    (hm : (keys m).Nodup) (h : (k, v) ∈ m) : getList k m = some v := by
  induction m with
  | nil => simp at h
  | cons p rest ih =>
    obtain ⟨k', v'⟩ := p
    have hm2 : k' ∉ keys rest ∧ (keys rest).Nodup := by
      simpa [keys] using hm
    rcases List.mem_cons.1 h with e | e
    · simp only [Prod.mk.injEq] at e
      simp [getList, e.1, e.2]
    · have hne : ¬ k' = k := by
        intro e2
        apply hm2.1
        rw [e2]
        exact List.mem_map.2 ⟨(k, v), e, rfl⟩
      simp only [getList, hne, if_false]
      exact ih hm2.2 e

theorem getList_isSome_of_mem_keys {V : Type} (k : String) (m : List (String × V))
    (h : k ∈ keys m) : ∃ v, getList k m = some v := by
  induction m with
  | nil => simp [keys] at h
  | cons p rest ih =>
    obtain ⟨k', v'⟩ := p
    by_cases hk : k' = k
    · exact ⟨v', by simp [getList, hk]⟩
    · have : k ∈ keys rest := by
        simp only [keys, List.map_cons, List.mem_cons] at h
        rcases h with e | e
        · exact absurd e.symm hk
        · exact e
      obtain ⟨v, hv⟩ := ih this
      exact ⟨v, by simp [getList, hk, hv]⟩

theorem mem_keys_of_getList {V : Type} (k : String) (v : V) (m : List (String × V))
    (h : getList k m = some v) : k ∈ keys m :=
  List.mem_map.2 ⟨(k, v), getList_mem k v m h, rfl⟩

/-! ## Frame facts of the counting loops -/

theorem countMatch_frame (fb : DateTimeFacetBuilder) (k : String) :
    (countMatch fb k).size = fb.size ∧ (countMatch fb k).field = fb.field ∧
      (countMatch fb k).missing = fb.missing ∧ (countMatch fb k).ranges = fb.ranges :=
  ⟨rfl, rfl, rfl, rfl⟩

theorem rangeLoop_frame (t : Time) (l : List (String × dateTimeRange)) :
    ∀ fb : DateTimeFacetBuilder,
      (rangeLoop t l fb).size = fb.size ∧ (rangeLoop t l fb).field = fb.field ∧
        (rangeLoop t l fb).missing = fb.missing ∧ (rangeLoop t l fb).ranges = fb.ranges := by
  induction l with
  | nil => intro fb; exact ⟨rfl, rfl, rfl, rfl⟩
  | cons p rest ih =>
    intro fb
    obtain ⟨k, r⟩ := p
    simp only [rangeLoop]
    split
    · obtain ⟨h1, h2, h3, h4⟩ := ih (countMatch fb k)
      exact ⟨h1, h2, h3, h4⟩
    · exact ih fb

theorem termStep_eq (pc : PrefixCoded) (fb : DateTimeFacetBuilder) (term : String) :
    termStep pc fb term =
      match decodeInstant pc term with
      | some t => rangeLoop t fb.ranges fb
      | none => fb := by
  unfold termStep decodeInstant
  cases hs : pc.Shift term with
  | none => simp
  | some shift =>
    cases shift with
    | zero => cases hi : pc.Int64 term <;> simp
    | succ n => simp

theorem termStep_frame (pc : PrefixCoded) (fb : DateTimeFacetBuilder) (term : String) :
    (termStep pc fb term).size = fb.size ∧ (termStep pc fb term).field = fb.field ∧
      (termStep pc fb term).missing = fb.missing ∧ (termStep pc fb term).ranges = fb.ranges := by
  rw [termStep_eq]
  cases decodeInstant pc term with
  | none => exact ⟨rfl, rfl, rfl, rfl⟩
  | some t => exact rangeLoop_frame t fb.ranges fb

theorem termLoop_frame (pc : PrefixCoded) (terms : List String) :
    ∀ fb : DateTimeFacetBuilder,
      (termLoop pc terms fb).size = fb.size ∧ (termLoop pc terms fb).field = fb.field ∧
        (termLoop pc terms fb).missing = fb.missing ∧
          (termLoop pc terms fb).ranges = fb.ranges := by
  induction terms with
  | nil => intro fb; exact ⟨rfl, rfl, rfl, rfl⟩
  | cons term rest ih =>
    intro fb
    simp only [termLoop]
    obtain ⟨h1, h2, h3, h4⟩ := ih (termStep pc fb term)
    obtain ⟨g1, g2, g3, g4⟩ := termStep_frame pc fb term
    exact ⟨h1.trans g1, h2.trans g2, h3.trans g3, h4.trans g4⟩

/-! ## What one pass over the ranges adds -/

theorem countOf_countMatch_self (fb : DateTimeFacetBuilder) (k : String) :
    countOf (countMatch fb k) k = countOf fb k + 1 := by
  unfold countOf countMatch
  cases h : getList k fb.termsCount with
  | none => simp [getList_setList_self]
  | some c => simp [getList_setList_self]

theorem countOf_countMatch_other (fb : DateTimeFacetBuilder) (k k0 : String) (h0 : k0 ≠ k) :
    countOf (countMatch fb k) k0 = countOf fb k0 := by
  unfold countOf countMatch
  cases h : getList k fb.termsCount with
  | none => simp [getList_setList_other _ _ _ _ h0]
  | some c => simp [getList_setList_other _ _ _ _ h0]

theorem getList_eq_none_of_not_mem {V : Type} (k : String) (m : List (String × V))
    (h : k ∉ keys m) : getList k m = none := by
  induction m with
  | nil => rfl
  | cons p rest ih =>
    obtain ⟨k', v'⟩ := p
    simp only [keys, List.map_cons, List.mem_cons, not_or] at h
    have h1 : ¬ k' = k := fun e => h.1 e.symm
    simp only [getList, h1, if_false]
    exact ih h.2

/-- The increment one instant gives a range name: one if the registered range
matches, nothing otherwise. -/
theorem rangeLoop_countOf (t : Time) (name : String) (l : List (String × dateTimeRange)) :
    ∀ fb : DateTimeFacetBuilder, (keys l).Nodup →
      countOf (rangeLoop t l fb) name =
        countOf fb name +
          (match getList name l with
           | some r => if rangeMatches r t then 1 else 0
           | none => 0) := by
  induction l with
  | nil => intro fb _; simp [rangeLoop, getList]
  | cons p rest ih =>
    intro fb hnd
    obtain ⟨k, r⟩ := p
    simp only [keys, List.map_cons, List.nodup_cons] at hnd
    obtain ⟨hk, hrest⟩ := hnd
    simp only [rangeLoop]
    rw [ih _ hrest]
    by_cases hkn : k = name
    · subst hkn
      have hnone : getList k rest = none := getList_eq_none_of_not_mem k rest hk
      simp only [hnone, getList, if_true]
      by_cases hm : rangeMatches r t = true
      · simp [hm, countOf_countMatch_self]
      · simp [hm]
    · simp only [getList, hkn, if_false]
      by_cases hm : rangeMatches r t = true
      · simp only [hm, if_true]
        rw [countOf_countMatch_other fb k name (fun e => hkn e.symm)]
      · simp [hm]

theorem rangeLoop_total (t : Time) (l : List (String × dateTimeRange)) :
    ∀ fb : DateTimeFacetBuilder,
      (rangeLoop t l fb).total =
        fb.total + (l.map (fun p => if rangeMatches p.2 t then (1 : Int) else 0)).sum := by
  induction l with
  | nil => intro fb; simp [rangeLoop]
  | cons p rest ih =>
    intro fb
    obtain ⟨k, r⟩ := p
    simp only [rangeLoop, List.map_cons, List.sum_cons]
    rw [ih]
    by_cases hm : rangeMatches r t = true
    · simp only [hm, if_true]
      show fb.total + 1 + _ = _
      ring
    · simp [hm]

theorem getList_perm {V : Type} (k : String) (l l' : List (String × V)) (hp : l.Perm l')
    (hnd : (keys l).Nodup) : getList k l = getList k l' := by
  have hnd' : (keys l').Nodup := (hp.map Prod.fst).nodup_iff.1 hnd
  cases hg : getList k l with
  | some v => exact (getList_of_mem k v l' hnd' (hp.mem_iff.1 (getList_mem k v l hg))).symm
  | none =>
    have hk : k ∉ keys l' := by
      intro hin
      obtain ⟨v, hv⟩ := getList_isSome_of_mem_keys k l ((hp.map Prod.fst).mem_iff.2 hin)
      rw [hg] at hv
      cases hv
    exact (getList_eq_none_of_not_mem k l' hk).symm

/-- The order in which `range fb.ranges` enumerates the ranges cannot be
observed: any two enumerations give every name the same count and give the
same `total`. -/
theorem rangeLoop_order_irrelevant (t : Time) (l l' : List (String × dateTimeRange))
    (fb : DateTimeFacetBuilder) (hp : l.Perm l') (hnd : (keys l).Nodup) :
    (∀ name, countOf (rangeLoop t l fb) name = countOf (rangeLoop t l' fb) name) ∧
      (rangeLoop t l fb).total = (rangeLoop t l' fb).total := by
  have hnd' : (keys l').Nodup := (hp.map Prod.fst).nodup_iff.1 hnd
  constructor
  · intro name
    rw [rangeLoop_countOf t name l fb hnd, rangeLoop_countOf t name l' fb hnd',
      getList_perm name l l' hp hnd]
  · rw [rangeLoop_total, rangeLoop_total]
    congr 1
    exact (hp.map _).sum_eq

/-! ## The code's test is the half-open interval -/

theorem rangeMatches_iff (r : dateTimeRange) (t : Time) :
    rangeMatches r t = true ↔ inRange r t := by
  unfold rangeMatches inRange Time.IsZero Time.After Time.Before Time.Equal
  simp only [Bool.and_eq_true, Bool.or_eq_true, decide_eq_true_eq]
  constructor
  · rintro ⟨h1, h2⟩
    refine ⟨?_, h2⟩
    rcases h1 with (h | h) | h
    · exact Or.inl h
    · exact Or.inr (le_of_lt h)
    · exact Or.inr (le_of_eq h.symm)
  · rintro ⟨h1, h2⟩
    refine ⟨?_, h2⟩
    rcases h1 with h | h
    · exact Or.inl (Or.inl h)
    · rcases lt_or_eq_of_le h with h3 | h3
      · exact Or.inl (Or.inr h3)
      · exact Or.inr h3.symm

theorem matchCount_nil (pc : PrefixCoded) (r : dateTimeRange) : matchCount pc [] r = 0 := rfl

theorem matchCount_cons (pc : PrefixCoded) (term : String) (rest : List String)
    (r : dateTimeRange) :
    matchCount pc (term :: rest) r =
      (match decodeInstant pc term with
       | some t => if rangeMatches r t then 1 else 0
       | none => 0) + matchCount pc rest r := by
  unfold matchCount eligibleInstants
  cases h : decodeInstant pc term with
  | none => simp [List.filterMap_cons, h]
  | some t =>
    simp only [List.filterMap_cons, h, List.countP_cons]
    by_cases hm : rangeMatches r t = true
    · have := (rangeMatches_iff r t).1 hm
      simp [hm, this, Nat.add_comm]
    · have : ¬ inRange r t := fun hi => hm ((rangeMatches_iff r t).2 hi)
      simp [hm, this]

/-- What `Update` adds to one name when the field is present. -/
theorem termLoop_countOf (pc : PrefixCoded) (name : String) (terms : List String) :
    ∀ fb : DateTimeFacetBuilder, (keys fb.ranges).Nodup →
      countOf (termLoop pc terms fb) name =
        countOf fb name +
          (match getList name fb.ranges with
           | some r => (matchCount pc terms r : Int)
           | none => 0) := by
  induction terms with
  | nil =>
    intro fb _
    cases getList name fb.ranges <;> simp [termLoop, matchCount_nil]
  | cons term rest ih =>
    intro fb hnd
    simp only [termLoop]
    have hr : (termStep pc fb term).ranges = fb.ranges := (termStep_frame pc fb term).2.2.2
    rw [ih (termStep pc fb term) (by rw [hr]; exact hnd), hr, termStep_eq]
    cases hd : decodeInstant pc term with
    | none =>
      cases hg : getList name fb.ranges with
      | none => simp
      | some r => simp [matchCount_cons, hd]
    | some t =>
      simp only []
      rw [rangeLoop_countOf t name fb.ranges fb hnd]
      cases hg : getList name fb.ranges with
      | none => simp
      | some r =>
        simp only [matchCount_cons, hd]
        by_cases hm : rangeMatches r t = true
        · simp [hm]; ring
        · simp [hm]

/-- What `Update` adds to `total` when the field is present. -/
theorem termLoop_total (pc : PrefixCoded) (terms : List String) :
    ∀ fb : DateTimeFacetBuilder,
      (termLoop pc terms fb).total =
        fb.total + (fb.ranges.map (fun p => (matchCount pc terms p.2 : Int))).sum := by
  induction terms with
  | nil => intro fb; simp [termLoop, matchCount_nil]
  | cons term rest ih =>
    intro fb
    simp only [termLoop]
    have hr : (termStep pc fb term).ranges = fb.ranges := (termStep_frame pc fb term).2.2.2
    rw [ih (termStep pc fb term), hr, termStep_eq]
    cases hd : decodeInstant pc term with
    | none => simp [matchCount_cons, hd]
    | some t =>
      simp only []
      rw [rangeLoop_total t fb.ranges fb]
      simp only [matchCount_cons, hd, Nat.cast_add, List.sum_map_add, Nat.cast_ite,
        Nat.cast_one, Nat.cast_zero]
      ring

theorem termLoop_filter (pc : PrefixCoded) (terms : List String) :
    ∀ fb : DateTimeFacetBuilder,
      termLoop pc (terms.filter (isEligible pc)) fb = termLoop pc terms fb := by
  induction terms with
  | nil => intro fb; rfl
  | cons term rest ih =>
    intro fb
    cases h : decodeInstant pc term with
    | none =>
      have he : isEligible pc term = false := by simp [isEligible, h]
      have hs : termStep pc fb term = fb := by rw [termStep_eq, h]
      simp only [List.filter_cons, he, termLoop, hs]
      exact ih fb
    | some t =>
      have he : isEligible pc term = true := by simp [isEligible, h]
      simp only [List.filter_cons, he, termLoop, if_true]
      exact ih _

theorem sampleCodec_inRange : sampleCodec.InRange := by
  intro term i h
  simp only [sampleCodec] at h
  unfold minInt64 maxInt64Succ
  split_ifs at h <;> simp at h <;> omega

theorem eligible_instant_pos (pc : PrefixCoded) (hpc : pc.InRange) (terms : List String)
    (t : Time) (ht : t ∈ eligibleInstants pc terms) : 0 < t.ns := by
  unfold eligibleInstants at ht
  obtain ⟨term, _, hdec⟩ := List.mem_filterMap.1 ht
  unfold decodeInstant at hdec
  split at hdec
  · rename_i i64 _ hi
    have hb := hpc term i64 hi
    simp only [Option.some.injEq] at hdec
    subst hdec
    unfold minInt64 at hb
    simp only [Time.Unix, unixToInternal]
    omega
  · simp at hdec

/-! ## The claims about `Update` and `AddRange` -/

/-- C1: when the builder's field is present, `Update` raises the count of every
registered range by exactly the number of eligible values whose instant lies
in the half-open interval of the range, leaves the counts of unregistered
names alone, and raises `total` by the sum of these increments over all
ranges.  At the boundaries: an instant equal to `start` passes the lower test
(so it matches exactly when the upper test admits it), and an instant equal
to `end` never matches. -/
theorem Update_counts_matching_values (pc : PrefixCoded) (fb : DateTimeFacetBuilder)
    (ft : String → Option (List String)) (terms : List String)
    (hmap : fb.WF) (hpc : pc.InRange) (hft : ft fb.field = some terms) :
    (∀ name r, getList name fb.ranges = some r →
        countOf (Update pc fb ft) name = countOf fb name + (matchCount pc terms r : Int)) ∧
      (∀ name, getList name fb.ranges = none →
        countOf (Update pc fb ft) name = countOf fb name) ∧
      (Update pc fb ft).total =
        fb.total + (fb.ranges.map (fun p => (matchCount pc terms p.2 : Int))).sum ∧
      (∀ t ∈ eligibleInstants pc terms, ∀ r : dateTimeRange,
        (t.Equal r.start = true →
          rangeMatches r t = (r.end_.IsZero || t.Before r.end_)) ∧
        (t.Equal r.end_ = true → rangeMatches r t = false)) := by
  have hU : Update pc fb ft = termLoop pc terms fb := by simp [Update, hft]
  rw [hU]
  refine ⟨?_, ?_, termLoop_total pc terms fb, ?_⟩
  · intro name r hr
    rw [termLoop_countOf pc name terms fb hmap.2, hr]
  · intro name hr
    rw [termLoop_countOf pc name terms fb hmap.2, hr]
    simp
  · intro t ht r
    have hpos := eligible_instant_pos pc hpc terms t ht
    constructor
    · intro he
      simp only [Time.Equal, decide_eq_true_eq] at he
      simp [rangeMatches, Time.Equal, he]
    · intro he
      simp only [Time.Equal, decide_eq_true_eq] at he
      have h0 : r.end_.ns ≠ 0 := by omega
      simp [rangeMatches, Time.IsZero, Time.Before, he, h0]

/-- C1 at the sample document: of its two eligible values, 5 ns lies in `old`
and 10 ns, the common boundary, lies in `new` only. -/
theorem Update_counts_matching_values_witness :
    sampleBuilder.WF ∧ sampleCodec.InRange ∧
      sampleDoc sampleBuilder.field = some ["t5", "bad", "t10", "coarse"] ∧
      countOf (Update sampleCodec sampleBuilder sampleDoc) "new" =
        countOf sampleBuilder "new" +
          (matchCount sampleCodec ["t5", "bad", "t10", "coarse"]
            { start := Time.Unix 0 10, end_ := zeroTime } : Int) :=
  ⟨by decide, sampleCodec_inRange, by decide,
    (Update_counts_matching_values sampleCodec sampleBuilder sampleDoc
      ["t5", "bad", "t10", "coarse"] (by decide) sampleCodec_inRange (by decide)).1
      "new" { start := Time.Unix 0 10, end_ := zeroTime } (by decide)⟩

/-- C2: a document without the builder's field raises `missing` by one and
leaves the counts, `total`, the ranges, the field name and the size as they
were. -/
theorem Update_missing_field (pc : PrefixCoded) (fb : DateTimeFacetBuilder)
    (ft : String → Option (List String)) (hft : ft fb.field = none) :
    (Update pc fb ft).missing = fb.missing + 1 ∧
      (Update pc fb ft).termsCount = fb.termsCount ∧
      (∀ name, countOf (Update pc fb ft) name = countOf fb name) ∧
      (Update pc fb ft).total = fb.total ∧
      (Update pc fb ft).ranges = fb.ranges ∧
      (Update pc fb ft).field = fb.field ∧
      (Update pc fb ft).size = fb.size := by
  simp [Update, hft, countOf]

/-- C2 at the sample builder and a document that only has a `title`. -/
theorem Update_missing_field_witness :
    sampleDocOther sampleBuilder.field = none ∧
      (Update sampleCodec sampleBuilder sampleDocOther).missing = sampleBuilder.missing + 1 :=
  ⟨by decide, (Update_missing_field sampleCodec sampleBuilder sampleDocOther (by decide)).1⟩

/-- C3: values that do not decode or are not at shift 0 have no effect:
`Update` on a document is `Update` on the document without its ineligible
values, and when no value of the field is eligible the state is unchanged
(no count, `total` or `missing` moves). -/
theorem Update_ignores_ineligible (pc : PrefixCoded) (fb : DateTimeFacetBuilder)
    (ft : String → Option (List String)) (terms : List String)
    (hft : ft fb.field = some terms) :
    Update pc fb ft = Update pc fb (dropIneligible pc ft) ∧
      ((∀ term ∈ terms, isEligible pc term = false) → Update pc fb ft = fb) := by
  have hU : Update pc fb ft = termLoop pc terms fb := by simp [Update, hft]
  have hD : Update pc fb (dropIneligible pc ft) =
      termLoop pc (terms.filter (isEligible pc)) fb := by
    simp [Update, dropIneligible, hft]
  refine ⟨by rw [hU, hD, termLoop_filter], ?_⟩
  intro hall
  have hnil : terms.filter (isEligible pc) = [] := by
    rw [List.filter_eq_nil_iff]
    intro term hmem
    simp [hall term hmem]
  rw [hU, ← termLoop_filter, hnil]
  rfl

/-- C3 at the sample document: dropping `"bad"` and `"coarse"` changes
nothing. -/
theorem Update_ignores_ineligible_witness :
    sampleDoc sampleBuilder.field = some ["t5", "bad", "t10", "coarse"] ∧
      Update sampleCodec sampleBuilder sampleDoc =
        Update sampleCodec sampleBuilder (dropIneligible sampleCodec sampleDoc) :=
  ⟨by decide, (Update_ignores_ineligible sampleCodec sampleBuilder sampleDoc
    ["t5", "bad", "t10", "coarse"] (by decide)).1⟩

/-- C10: `AddRange name start end` leaves `(start, end)` registered under
`name`, whatever was registered before and whatever the order of `start` and
`end`; every other name keeps its range, and the counts, `total`, `missing`,
the field name and the size are untouched. -/
theorem AddRange_registers_range (fb : DateTimeFacetBuilder) (name : String)
    (start end_ : Time) :
    getList name (AddRange fb name start end_).ranges =
        some { start := start, end_ := end_ } ∧
      (∀ other, other ≠ name →
        getList other (AddRange fb name start end_).ranges = getList other fb.ranges) ∧
      (AddRange fb name start end_).termsCount = fb.termsCount ∧
      (AddRange fb name start end_).total = fb.total ∧
      (AddRange fb name start end_).missing = fb.missing ∧
      (AddRange fb name start end_).field = fb.field ∧
      (AddRange fb name start end_).size = fb.size :=
  ⟨getList_setList_self name _ fb.ranges,
    fun other h => getList_setList_other name other _ fb.ranges h, rfl, rfl, rfl, rfl, rfl⟩

/-! ## The invariant of the builder -/

theorem Inv_new (field : String) (size : Int) : Inv (NewDateTimeFacetBuilder field size) := by
  refine ⟨⟨?_, ?_⟩, ?_, ?_, ?_⟩ <;> simp [NewDateTimeFacetBuilder, keys]

theorem Inv_AddRange (fb : DateTimeFacetBuilder) (name : String) (start end_ : Time)
    (h : Inv fb) : Inv (AddRange fb name start end_) := by
  obtain ⟨⟨h1, h2⟩, h3, h4, h5⟩ := h
  refine ⟨⟨h1, nodup_keys_setList name _ fb.ranges h2⟩, ?_, h4, h5⟩
  intro k hk
  exact (mem_keys_setList name k _ fb.ranges).2 (Or.inr (h3 k hk))

theorem Inv_countMatch (fb : DateTimeFacetBuilder) (k : String) (h : Inv fb)
    (hk : k ∈ keys fb.ranges) : Inv (countMatch fb k) := by
  obtain ⟨⟨h1, h2⟩, h3, h4, h5⟩ := h
  unfold countMatch
  cases hg : getList k fb.termsCount with
  | none =>
    refine ⟨⟨nodup_keys_setList k _ _ h1, h2⟩, ?_, ?_, ?_⟩
    · intro k0 hk0
      rcases (mem_keys_setList k k0 _ _).1 hk0 with e | e
      · exact e ▸ hk
      · exact h3 k0 e
    · intro p hp
      rcases mem_setList k _ _ p hp with e | e
      · rw [e]
      · exact h4 p e
    · show fb.total + 1 = _
      rw [sum_setList, hg, h5]
      simp
  | some c =>
    refine ⟨⟨nodup_keys_setList k _ _ h1, h2⟩, ?_, ?_, ?_⟩
    · intro k0 hk0
      rcases (mem_keys_setList k k0 _ _).1 hk0 with e | e
      · exact e ▸ hk
      · exact h3 k0 e
    · intro p hp
      rcases mem_setList k _ _ p hp with e | e
      · have hc := h4 (k, c) (getList_mem k c _ hg)
        rw [e]
        show 1 ≤ c + 1
        simp only [] at hc
        omega
      · exact h4 p e
    · show fb.total + 1 = _
      rw [sum_setList, hg, h5]
      simp only [Option.getD_some]
      ring

theorem Inv_rangeLoop (t : Time) (l : List (String × dateTimeRange)) :
    ∀ fb : DateTimeFacetBuilder, Inv fb → (∀ k ∈ keys l, k ∈ keys fb.ranges) →
      Inv (rangeLoop t l fb) := by
  induction l with
  | nil => intro fb h _; exact h
  | cons p rest ih =>
    intro fb h hsub
    obtain ⟨k, r⟩ := p
    have hk : k ∈ keys fb.ranges := hsub k (by simp [keys])
    have hrest : ∀ k0 ∈ keys rest, k0 ∈ keys fb.ranges := by
      intro k0 hk0
      exact hsub k0 (by simp only [keys, List.map_cons, List.mem_cons]; exact Or.inr hk0)
    simp only [rangeLoop]
    split
    · exact ih _ (Inv_countMatch fb k h hk) hrest
    · exact ih fb h hrest

theorem Inv_termStep (pc : PrefixCoded) (fb : DateTimeFacetBuilder) (term : String)
    (h : Inv fb) : Inv (termStep pc fb term) := by
  rw [termStep_eq]
  cases decodeInstant pc term with
  | none => exact h
  | some t => exact Inv_rangeLoop t fb.ranges fb h (fun k hk => hk)

theorem Inv_termLoop (pc : PrefixCoded) (terms : List String) :
    ∀ fb : DateTimeFacetBuilder, Inv fb → Inv (termLoop pc terms fb) := by
  induction terms with
  | nil => intro fb h; exact h
  | cons term rest ih => intro fb h; exact ih _ (Inv_termStep pc fb term h)

theorem Inv_Update (pc : PrefixCoded) (fb : DateTimeFacetBuilder)
    (ft : String → Option (List String)) (h : Inv fb) : Inv (Update pc fb ft) := by
  unfold Update
  cases ft fb.field with
  | none => exact h
  | some terms => exact Inv_termLoop pc terms fb h

theorem Inv_of_Reachable (pc : PrefixCoded) (fb : DateTimeFacetBuilder)
    (h : Reachable pc fb) : Inv fb := by
  induction h with
  | new field size => exact Inv_new field size
  | addRange name start end_ _ ih => exact Inv_AddRange _ name start end_ ih
  | update ft _ ih => exact Inv_Update pc _ ft ih

/-! ## The shape of `Result` -/

theorem candidates_ok (Format : Time → String) (ranges : List (String × dateTimeRange))
    (iter : List (String × Int)) (h : ∀ p ∈ iter, p.1 ∈ keys ranges) :
    ∃ cands, candidates Format ranges iter = .ok cands ∧
      cands.map (fun e => (e.Name, e.Count)) = iter := by
  induction iter with
  | nil => exact ⟨[], rfl, rfl⟩
  | cons p rest ih =>
    obtain ⟨term, count⟩ := p
    obtain ⟨tl, htl, hmap⟩ := ih (fun q hq => h q (List.mem_cons_of_mem _ hq))
    obtain ⟨r, hr⟩ := getList_isSome_of_mem_keys term ranges (h (term, count) (by simp))
    have hc : candidates Format ranges ((term, count) :: rest) =
        .ok ({ Name := term
               Start := if r.start.IsZero then none else some (Format r.start)
               End := if r.end_.IsZero then none else some (Format r.end_)
               Count := count } :: tl) := by
      simp only [candidates, hr, htl]
    exact ⟨_, hc, by simp [hmap]⟩

/-- The list `Result` retains and the record it returns, once the candidates
are known. -/
theorem Result_eq (Format : Time → String) (sort : List DateRangeFacet → List DateRangeFacet)
    (fb : DateTimeFacetBuilder) (iter : List (String × Int)) (cands : List DateRangeFacet)
    (hc : candidates Format fb.ranges iter = .ok cands) :
    Result Format sort fb iter =
      if fb.size < 0 then .error Panic.sliceBoundsOutOfRange
      else .ok { Field := fb.field, Total := fb.total, Missing := fb.missing,
                 Other := fb.total - notOther ((sort cands).take fb.size.toNat),
                 DateRanges := (sort cands).take fb.size.toNat } := by
  unfold Result
  simp only [hc]
  by_cases h1 : fb.size < ((sort cands).length : Int)
  · simp only [h1, if_true]
  · have h2 : ¬ fb.size < 0 := by omega
    have h3 : (sort cands).length ≤ fb.size.toNat := by omega
    simp only [h1, h2, if_false, List.take_of_length_le h3]

theorem candidates_of_Inv (Format : Time → String) (fb : DateTimeFacetBuilder)
    (iter : List (String × Int)) (hinv : Inv fb) (hiter : iter.Perm fb.termsCount) :
    ∃ cands, candidates Format fb.ranges iter = .ok cands ∧
      cands.map (fun e => (e.Name, e.Count)) = iter := by
  apply candidates_ok
  intro p hp
  apply hinv.2.1
  exact List.mem_map.2 ⟨p, hiter.mem_iff.1 hp, rfl⟩

theorem notOther_eq_sum (cands : List DateRangeFacet) (iter : List (String × Int))
    (h : cands.map (fun e => (e.Name, e.Count)) = iter) :
    notOther cands = (iter.map Prod.snd).sum := by
  subst h
  simp [notOther, List.map_map, Function.comp_def]

theorem notOther_take_le (l : List DateRangeFacet) (n : Nat) (h : ∀ e ∈ l, 0 ≤ e.Count) :
    notOther (l.take n) ≤ notOther l := by
  have hsplit : notOther l = notOther (l.take n) + notOther (l.drop n) := by
    unfold notOther
    rw [← List.sum_append, ← List.map_append, List.take_append_drop]
  have hdrop : 0 ≤ notOther (l.drop n) := by
    unfold notOther
    apply List.sum_nonneg
    intro x hx
    obtain ⟨e, he, rfl⟩ := List.mem_map.1 hx
    exact h e (List.mem_of_mem_drop he)
  omega

/-! ## The order of the result list -/

theorem Char_eq_of_toNat_eq (c d : Char) (h : c.toNat = d.toNat) : c = d := by
  apply Char.ext
  apply UInt32.ext
  exact h

theorem codePointsLess_asymm : ∀ s t : List Char,
    codePointsLess s t = true → codePointsLess t s = false := by
  intro s
  induction s with
  | nil =>
    intro t _
    cases t <;> rfl
  | cons c cs ih =>
    intro t h
    cases t with
    | nil => simp [codePointsLess] at h
    | cons d ds =>
      simp only [codePointsLess] at h ⊢
      by_cases h1 : c.toNat < d.toNat
      · have h2 : ¬ d.toNat < c.toNat := by omega
        simp [h1, h2]
      · by_cases h2 : d.toNat < c.toNat
        · simp [h1, h2] at h
        · simp only [h1, h2, if_false] at h ⊢
          exact ih ds h

theorem codePointsLess_negTrans : ∀ s t u : List Char,
    codePointsLess s t = false → codePointsLess t u = false → codePointsLess s u = false := by
  intro s
  induction s with
  | nil =>
    intro t u h1 h2
    cases t with
    | nil => exact h2
    | cons d ds => simp [codePointsLess] at h1
  | cons c cs ih =>
    intro t u h1 h2
    cases u with
    | nil => rfl
    | cons e es =>
      cases t with
      | nil => simp [codePointsLess] at h2
      | cons d ds =>
        simp only [codePointsLess] at h1 h2 ⊢
        by_cases a1 : c.toNat < d.toNat
        · simp [a1] at h1
        · by_cases b1 : d.toNat < e.toNat
          · simp [b1] at h2
          · by_cases a2 : d.toNat < c.toNat
            · have c1 : ¬ c.toNat < e.toNat := by omega
              have c2 : e.toNat < c.toNat := by omega
              simp [c1, c2]
            · by_cases b2 : e.toNat < d.toNat
              · have c1 : ¬ c.toNat < e.toNat := by omega
                have c2 : e.toNat < c.toNat := by omega
                simp [c1, c2]
              · have c1 : ¬ c.toNat < e.toNat := by omega
                have c2 : ¬ e.toNat < c.toNat := by omega
                simp only [a1, a2, b1, b2, c1, c2, if_false] at h1 h2 ⊢
                exact ih ds es h1 h2

theorem codePointsLess_eq : ∀ s t : List Char,
    codePointsLess s t = false → codePointsLess t s = false → s = t := by
  intro s
  induction s with
  | nil =>
    intro t h1 _
    cases t with
    | nil => rfl
    | cons d ds => simp [codePointsLess] at h1
  | cons c cs ih =>
    intro t h1 h2
    cases t with
    | nil => simp [codePointsLess] at h2
    | cons d ds =>
      simp only [codePointsLess] at h1 h2
      by_cases a1 : c.toNat < d.toNat
      · simp [a1] at h1
      · by_cases a2 : d.toNat < c.toNat
        · simp [a2] at h2
        · simp only [a1, a2, if_false] at h1 h2
          have hcd : c = d := Char_eq_of_toNat_eq c d (by omega)
          rw [hcd, ih ds h1 h2]

/-- Of two entries, at most one is `Less` than the other. -/
theorem Less_asymm (a b : DateRangeFacet) (h : DateRangeFacets.Less a b = true) :
    DateRangeFacets.Less b a = false := by
  unfold DateRangeFacets.Less at h ⊢
  by_cases hc : a.Count = b.Count
  · simp only [hc, if_true] at h ⊢
    exact codePointsLess_asymm _ _ h
  · have hc2 : ¬ b.Count = a.Count := fun e => hc e.symm
    simp only [hc, hc2, if_false, decide_eq_true_eq, decide_eq_false_iff_not] at h ⊢
    omega

/-- "Not `Less`" is transitive. -/
theorem Less_negTrans (a b c : DateRangeFacet) (h1 : DateRangeFacets.Less a b = false)
    (h2 : DateRangeFacets.Less b c = false) : DateRangeFacets.Less a c = false := by
  unfold DateRangeFacets.Less at h1 h2 ⊢
  by_cases e1 : a.Count = b.Count
  · by_cases e2 : b.Count = c.Count
    · have e3 : a.Count = c.Count := e1.trans e2
      simp only [e1, e2, e3, if_true] at h1 h2 ⊢
      exact codePointsLess_negTrans _ _ _ h1 h2
    · have e3 : ¬ a.Count = c.Count := fun e => e2 (e1.symm.trans e)
      simp only [e2, e3, if_false, decide_eq_false_iff_not] at h2 ⊢
      omega
  · by_cases e2 : b.Count = c.Count
    · have e3 : ¬ a.Count = c.Count := fun e => e1 (e.trans e2.symm)
      simp only [e1, e3, if_false, decide_eq_false_iff_not] at h1 ⊢
      omega
    · simp only [e1, e2, if_false, decide_eq_false_iff_not] at h1 h2
      by_cases e3 : a.Count = c.Count
      · omega
      · simp only [e3, if_false, decide_eq_false_iff_not]
        omega

/-- An entry that is not `Less` than another does not have the larger count. -/
theorem count_le_of_not_Less (a b : DateRangeFacet) (h : DateRangeFacets.Less b a = false) :
    b.Count ≤ a.Count := by
  unfold DateRangeFacets.Less at h
  by_cases hc : b.Count = a.Count
  · omega
  · simp only [hc, if_false, decide_eq_false_iff_not] at h
    omega

/-- Two entries neither of which is `Less` than the other have the same count
and the same name. -/
theorem same_key_of_not_Less (a b : DateRangeFacet) (h1 : DateRangeFacets.Less a b = false)
    (h2 : DateRangeFacets.Less b a = false) : a.Count = b.Count ∧ a.Name = b.Name := by
  have hc : a.Count = b.Count :=
    le_antisymm (count_le_of_not_Less b a h1) (count_le_of_not_Less a b h2)
  refine ⟨hc, ?_⟩
  unfold DateRangeFacets.Less stringLess at h1 h2
  simp only [hc, if_true] at h1 h2
  have := codePointsLess_eq _ _ h1 h2
  exact String.ext this

/-! ## The insertion sort is a sort -/

theorem insertBack_perm (x : DateRangeFacet) (l : List DateRangeFacet) :
    (insertBack x l).Perm (x :: l) := by
  induction l with
  | nil => exact List.Perm.refl _
  | cons y ys ih =>
    simp only [insertBack]
    split
    · exact (List.Perm.cons y ih).trans (List.Perm.swap x y ys)
    · exact List.Perm.refl _

theorem insertBack_sorted (x : DateRangeFacet) (l : List DateRangeFacet)
    (h : l.Pairwise (fun a b => DateRangeFacets.Less a b = false)) :
    (insertBack x l).Pairwise (fun a b => DateRangeFacets.Less a b = false) := by
  induction l with
  | nil => simp [insertBack]
  | cons y ys ih =>
    obtain ⟨hy, hys⟩ := List.pairwise_cons.1 h
    simp only [insertBack]
    by_cases hl : DateRangeFacets.Less x y = true
    · simp only [hl, if_true]
      refine List.pairwise_cons.2 ⟨?_, ih hys⟩
      intro z hz
      rcases List.mem_cons.1 ((insertBack_perm x ys).mem_iff.1 hz) with e | e
      · subst e
        exact Less_asymm z y hl
      · exact hy z e
    · simp only [hl, if_false]
      have hxy : DateRangeFacets.Less x y = false := by simpa using hl
      refine List.pairwise_cons.2 ⟨?_, h⟩
      intro z hz
      rcases List.mem_cons.1 hz with e | e
      · subst e; exact hxy
      · exact Less_negTrans x y z hxy (hy z e)

theorem insertionSort_isSort : IsSort insertionSort := by
  intro l
  have key : ∀ (l acc : List DateRangeFacet),
      acc.Pairwise (fun a b => DateRangeFacets.Less a b = false) →
      (l.foldl (fun prefixRev x => insertBack x prefixRev) acc).Perm (l.reverse ++ acc) ∧
      (l.foldl (fun prefixRev x => insertBack x prefixRev) acc).Pairwise
        (fun a b => DateRangeFacets.Less a b = false) := by
    intro l
    induction l with
    | nil => intro acc h; exact ⟨by simp, h⟩
    | cons x xs ih =>
      intro acc h
      obtain ⟨hp, hs⟩ := ih (insertBack x acc) (insertBack_sorted x acc h)
      refine ⟨?_, hs⟩
      simp only [List.foldl_cons, List.reverse_cons, List.append_assoc, List.singleton_append]
      exact hp.trans (List.Perm.append_left _ (insertBack_perm x acc))
  obtain ⟨hp, hs⟩ := key l [] List.Pairwise.nil
  unfold insertionSort
  constructor
  · refine (List.reverse_perm _).trans (hp.trans ?_)
    simp
  · exact List.pairwise_reverse.2 hs

/-! ## The claims about `Result` -/

theorem sampleState_reachable : Reachable sampleCodec sampleState :=
  Reachable.update sampleDoc
    (Reachable.addRange "new" (Time.Unix 0 10) zeroTime
      (Reachable.addRange "old" zeroTime (Time.Unix 0 10) (Reachable.new "date" 2)))

theorem sizeZeroState_reachable : Reachable sampleCodec sizeZeroState :=
  Reachable.update sampleDoc
    (Reachable.addRange "new" (Time.Unix 0 10) zeroTime
      (Reachable.addRange "old" zeroTime (Time.Unix 0 10) (Reachable.new "date" 0)))

/-- On a reachable state `Result` either panics on the negative size or
returns the first `size` sorted candidates, one candidate per entry of
`termsCount`. -/
theorem Result_of_Reachable (pc : PrefixCoded) (Format : Time → String)
    (sort : List DateRangeFacet → List DateRangeFacet) (fb : DateTimeFacetBuilder)
    (iter : List (String × Int)) (hr : Reachable pc fb) (hi : iter.Perm fb.termsCount) :
    ∃ cands, cands.map (fun e => (e.Name, e.Count)) = iter ∧
      Result Format sort fb iter =
        if fb.size < 0 then .error Panic.sliceBoundsOutOfRange
        else .ok { Field := fb.field, Total := fb.total, Missing := fb.missing,
                   Other := fb.total - notOther ((sort cands).take fb.size.toNat),
                   DateRanges := (sort cands).take fb.size.toNat } := by
  obtain ⟨cands, hc, hmap⟩ := candidates_of_Inv Format fb iter (Inv_of_Reachable pc fb hr) hi
  exact ⟨cands, hmap, Result_eq Format sort fb iter cands hc⟩

theorem Result_returns (pc : PrefixCoded) (Format : Time → String)
    (sort : List DateRangeFacet → List DateRangeFacet) (fb : DateTimeFacetBuilder)
    (iter : List (String × Int)) (hr : Reachable pc fb) (hi : iter.Perm fb.termsCount)
    (hn : 0 ≤ fb.size) : ∃ res, Result Format sort fb iter = .ok res := by
  obtain ⟨cands, _, hres⟩ := Result_of_Reachable pc Format sort fb iter hr hi
  have h0 : ¬ fb.size < 0 := by omega
  rw [if_neg h0] at hres
  exact ⟨_, hres⟩

/-- The retained entries of any returned result: a prefix of the sorted
candidates. -/
theorem Result_ok_shape (pc : PrefixCoded) (Format : Time → String)
    (sort : List DateRangeFacet → List DateRangeFacet) (fb : DateTimeFacetBuilder)
    (iter : List (String × Int)) (hr : Reachable pc fb) (hi : iter.Perm fb.termsCount)
    (res : FacetResult) (hres : Result Format sort fb iter = .ok res) :
    ∃ cands, cands.map (fun e => (e.Name, e.Count)) = iter ∧ 0 ≤ fb.size ∧
      res = { Field := fb.field, Total := fb.total, Missing := fb.missing,
              Other := fb.total - notOther ((sort cands).take fb.size.toNat),
              DateRanges := (sort cands).take fb.size.toNat } := by
  obtain ⟨cands, hmap, heq⟩ := Result_of_Reachable pc Format sort fb iter hr hi
  rw [hres] at heq
  by_cases h0 : fb.size < 0
  · rw [if_pos h0] at heq
    cases heq
  · rw [if_neg h0] at heq
    injection heq with heq
    exact ⟨cands, hmap, by omega, heq⟩

theorem cands_counts_nonneg (fb : DateTimeFacetBuilder) (iter : List (String × Int))
    (cands l : List DateRangeFacet) (hinv : Inv fb) (hi : iter.Perm fb.termsCount)
    (hmap : cands.map (fun e => (e.Name, e.Count)) = iter) (hl : l.Perm cands) :
    ∀ e ∈ l, (e.Name, e.Count) ∈ fb.termsCount ∧ 1 ≤ e.Count := by
  intro e he
  have h1 : (e.Name, e.Count) ∈ iter := by
    rw [← hmap]
    exact List.mem_map.2 ⟨e, hl.mem_iff.1 he, rfl⟩
  have h2 := hi.mem_iff.1 h1
  exact ⟨h2, hinv.2.2.1 _ h2⟩

/-- C4, as it holds: on a reachable state with a size limit that is not
negative, `Result` returns a result whose `Other` is `total` minus the sum of
the counts of the retained entries, and `Other` is not negative. -/
theorem Result_other_reconciles (pc : PrefixCoded) (Format : Time → String)
    (sort : List DateRangeFacet → List DateRangeFacet) (fb : DateTimeFacetBuilder)
    (iter : List (String × Int)) (hr : Reachable pc fb) (hs : IsSort sort)
    (hi : iter.Perm fb.termsCount) (hn : 0 ≤ fb.size) :
    ∃ res, Result Format sort fb iter = .ok res ∧ res.Total = fb.total ∧
      res.Other = res.Total - notOther res.DateRanges ∧ 0 ≤ res.Other := by
  obtain ⟨res, hres⟩ := Result_returns pc Format sort fb iter hr hi hn
  obtain ⟨cands, hmap, _, hshape⟩ := Result_ok_shape pc Format sort fb iter hr hi res hres
  have hinv := Inv_of_Reachable pc fb hr
  refine ⟨res, hres, by rw [hshape], by rw [hshape], ?_⟩
  have hle := notOther_take_le (sort cands) fb.size.toNat
    (fun e he => by
      have := (cands_counts_nonneg fb iter cands (sort cands) hinv hi hmap (hs cands).1 e he).2
      omega)
  have hsum : notOther (sort cands) = fb.total := by
    have h1 : notOther (sort cands) = notOther cands := by
      unfold notOther
      exact ((hs cands).1.map _).sum_eq
    rw [h1, notOther_eq_sum cands iter hmap, hinv.2.2.2]
    exact (hi.map _).sum_eq
  rw [hshape]
  show 0 ≤ fb.total - notOther ((sort cands).take fb.size.toNat)
  omega

/-- C4 at the sample state (size 2, two entries of count 1). -/
theorem Result_other_reconciles_witness :
    Reachable sampleCodec sampleState ∧ IsSort insertionSort ∧
      sampleState.termsCount.Perm sampleState.termsCount ∧ 0 ≤ sampleState.size ∧
      ∃ res, Result sampleFormat insertionSort sampleState sampleState.termsCount = .ok res ∧
        res.Total = sampleState.total ∧
        res.Other = res.Total - notOther res.DateRanges ∧ 0 ≤ res.Other :=
  ⟨sampleState_reachable, insertionSort_isSort, List.Perm.refl _, by decide,
    Result_other_reconciles sampleCodec sampleFormat insertionSort sampleState
      sampleState.termsCount sampleState_reachable insertionSort_isSort (List.Perm.refl _)
      (by decide)⟩

/-- C4 as stated fails for a negative size limit: on the fresh builder of
size -1, a reachable state, `Result` panics on the slice `[:-1]` and returns
no result at all. -/
theorem Result_other_negative_size_counterexample :
    Reachable sampleCodec negativeSizeBuilder ∧ IsSort insertionSort ∧
      ([] : List (String × Int)).Perm negativeSizeBuilder.termsCount ∧
      Result sampleFormat insertionSort negativeSizeBuilder [] =
        .error Panic.sliceBoundsOutOfRange ∧
      ¬ ∃ res, Result sampleFormat insertionSort negativeSizeBuilder [] = .ok res ∧
        res.Other = negativeSizeBuilder.total - notOther res.DateRanges ∧ 0 ≤ res.Other :=
  ⟨Reachable.new "date" (-1), insertionSort_isSort, List.Perm.refl _, by decide,
    by
      rintro ⟨res, h, _⟩
      have h2 : Result sampleFormat insertionSort negativeSizeBuilder [] =
          .error Panic.sliceBoundsOutOfRange := by decide
      rw [h2] at h
      cases h⟩

/-- C8: with size 0 `Result` returns an empty list and `Other` equal to
`total`. -/
theorem Result_size_zero (pc : PrefixCoded) (Format : Time → String)
    (sort : List DateRangeFacet → List DateRangeFacet) (fb : DateTimeFacetBuilder)
    (iter : List (String × Int)) (hr : Reachable pc fb) (hi : iter.Perm fb.termsCount)
    (h0 : fb.size = 0) :
    ∃ res, Result Format sort fb iter = .ok res ∧ res.DateRanges = [] ∧
      res.Other = fb.total ∧ res.Total = fb.total := by
  obtain ⟨res, hres⟩ := Result_returns pc Format sort fb iter hr hi (by omega)
  obtain ⟨cands, _, _, hshape⟩ := Result_ok_shape pc Format sort fb iter hr hi res hres
  refine ⟨res, hres, ?_, ?_, ?_⟩ <;> rw [hshape] <;> simp [h0, notOther]

/-- C8 at a size-0 builder that has counted two matches. -/
theorem Result_size_zero_witness :
    Reachable sampleCodec sizeZeroState ∧ sizeZeroState.termsCount.Perm sizeZeroState.termsCount ∧
      sizeZeroState.size = 0 ∧
      ∃ res, Result sampleFormat insertionSort sizeZeroState sizeZeroState.termsCount = .ok res ∧
        res.DateRanges = [] ∧ res.Other = sizeZeroState.total ∧
        res.Total = sizeZeroState.total :=
  ⟨sizeZeroState_reachable, List.Perm.refl _, by decide,
    Result_size_zero sampleCodec sampleFormat insertionSort sizeZeroState
      sizeZeroState.termsCount sizeZeroState_reachable (List.Perm.refl _) (by decide)⟩

/-- C9: every result `Result` returns carries the builder's field name, its
accumulated `total` and its accumulated `missing`, whatever the size limit
and whatever was truncated; and `Result` does return one whenever the size is
not negative. -/
theorem Result_field_total_missing (pc : PrefixCoded) (Format : Time → String)
    (sort : List DateRangeFacet → List DateRangeFacet) (fb : DateTimeFacetBuilder)
    (iter : List (String × Int)) (hr : Reachable pc fb) (hi : iter.Perm fb.termsCount) :
    (0 ≤ fb.size → ∃ res, Result Format sort fb iter = .ok res) ∧
      ∀ res, Result Format sort fb iter = .ok res →
        res.Field = fb.field ∧ res.Total = fb.total ∧ res.Missing = fb.missing := by
  refine ⟨Result_returns pc Format sort fb iter hr hi, ?_⟩
  intro res hres
  obtain ⟨cands, _, _, hshape⟩ := Result_ok_shape pc Format sort fb iter hr hi res hres
  rw [hshape]
  exact ⟨rfl, rfl, rfl⟩

/-- C9 at the sample state. -/
theorem Result_field_total_missing_witness :
    Reachable sampleCodec sampleState ∧ sampleState.termsCount.Perm sampleState.termsCount ∧
      ((0 ≤ sampleState.size →
          ∃ res, Result sampleFormat insertionSort sampleState sampleState.termsCount = .ok res) ∧
        ∀ res, Result sampleFormat insertionSort sampleState sampleState.termsCount = .ok res →
          res.Field = sampleState.field ∧ res.Total = sampleState.total ∧
            res.Missing = sampleState.missing) :=
  ⟨sampleState_reachable, List.Perm.refl _,
    Result_field_total_missing sampleCodec sampleFormat insertionSort sampleState
      sampleState.termsCount sampleState_reachable (List.Perm.refl _)⟩

/-- C6: the entries of every list `Result` returns are in descending order of
count: for positions `i < j` the count at `i` is at least the count at `j`;
and `Result` does return a list whenever the size is not negative. -/
theorem Result_sorted_by_count (pc : PrefixCoded) (Format : Time → String)
    (sort : List DateRangeFacet → List DateRangeFacet) (fb : DateTimeFacetBuilder)
    (iter : List (String × Int)) (hr : Reachable pc fb) (hs : IsSort sort)
    (hi : iter.Perm fb.termsCount) :
    (0 ≤ fb.size → ∃ res, Result Format sort fb iter = .ok res) ∧
      ∀ res, Result Format sort fb iter = .ok res →
        ∀ (i j : Nat) (hij : i < j) (hj : j < res.DateRanges.length),
          (res.DateRanges.get ⟨j, hj⟩).Count ≤
            (res.DateRanges.get ⟨i, lt_trans hij hj⟩).Count := by
  refine ⟨Result_returns pc Format sort fb iter hr hi, ?_⟩
  intro res hres
  obtain ⟨cands, _, _, hshape⟩ := Result_ok_shape pc Format sort fb iter hr hi res hres
  have hpw : res.DateRanges.Pairwise (fun a b => DateRangeFacets.Less b a = false) := by
    rw [hshape]
    exact (hs cands).2.sublist (List.take_sublist _ _)
  intro i j hij hj
  have h := (List.pairwise_iff_getElem.1 hpw) i j (lt_trans hij hj) hj hij
  exact count_le_of_not_Less _ _ h

/-- C6 at the sample state. -/
theorem Result_sorted_by_count_witness :
    Reachable sampleCodec sampleState ∧ IsSort insertionSort ∧
      sampleState.termsCount.Perm sampleState.termsCount ∧
      ((0 ≤ sampleState.size →
          ∃ res, Result sampleFormat insertionSort sampleState sampleState.termsCount = .ok res) ∧
        ∀ res, Result sampleFormat insertionSort sampleState sampleState.termsCount = .ok res →
          ∀ (i j : Nat) (hij : i < j) (hj : j < res.DateRanges.length),
            (res.DateRanges.get ⟨j, hj⟩).Count ≤
              (res.DateRanges.get ⟨i, lt_trans hij hj⟩).Count) :=
  ⟨sampleState_reachable, insertionSort_isSort, List.Perm.refl _,
    Result_sorted_by_count sampleCodec sampleFormat insertionSort sampleState
      sampleState.termsCount sampleState_reachable insertionSort_isSort (List.Perm.refl _)⟩

/-- On a state that satisfies the invariant the ranges with a count above
zero are exactly the entries of `termsCount`. -/
theorem numMatched_eq_length (fb : DateTimeFacetBuilder) (hinv : Inv fb) :
    numMatched fb = fb.termsCount.length := by
  obtain ⟨⟨h1, h2⟩, h3, h4, _⟩ := hinv
  have hnd : ((fb.ranges.filter
      (fun p => decide (0 < countOf fb p.1))).map Prod.fst).Nodup :=
    List.Nodup.sublist ((List.filter_sublist _).map _) h2
  have hperm : ((fb.ranges.filter
      (fun p => decide (0 < countOf fb p.1))).map Prod.fst).Perm
        (keys fb.termsCount) := by
    rw [List.perm_ext_iff_of_nodup hnd h1]
    intro k
    constructor
    · intro hk
      obtain ⟨p, hp, rfl⟩ := List.mem_map.1 hk
      have hpos := (List.mem_filter.1 hp).2
      simp only [decide_eq_true_eq, countOf] at hpos
      cases hg : getList p.1 fb.termsCount with
      | none => simp [hg] at hpos
      | some c => exact mem_keys_of_getList p.1 c _ hg
    · intro hk
      obtain ⟨c, hc⟩ := getList_isSome_of_mem_keys k fb.termsCount hk
      have hc1 := h4 (k, c) (getList_mem k c _ hc)
      obtain ⟨p, hp, hpk⟩ := List.mem_map.1 (h3 k hk)
      refine List.mem_map.2 ⟨p, List.mem_filter.2 ⟨hp, ?_⟩, hpk⟩
      simp only [countOf, hpk, hc, Option.getD_some, decide_eq_true_eq]
      simp only [] at hc1
      omega
  unfold numMatched
  rw [← List.length_map _ Prod.fst, hperm.length_eq]
  simp [keys]

theorem countOf_of_mem (fb : DateTimeFacetBuilder) (hinv : Inv fb) (k : String) (c : Int)
    (h : (k, c) ∈ fb.termsCount) : countOf fb k = c := by
  unfold countOf
  rw [getList_of_mem k c fb.termsCount hinv.1.1 h]
  rfl

theorem mem_of_countOf_pos (fb : DateTimeFacetBuilder) (k : String) (h : 0 < countOf fb k) :
    (k, countOf fb k) ∈ fb.termsCount := by
  unfold countOf at h ⊢
  cases hg : getList k fb.termsCount with
  | none => simp [hg] at h
  | some c => simpa using getList_mem k c _ hg

/-- C5: on a reachable state with a size limit `N ≥ 0`, `Result` returns a list
of length `min N (number of ranges with count > 0)`, and the list is a top-`N`
selection: the count of every retained entry is at least the count of every
registered range with a count above zero that is not in the list. -/
theorem Result_top_N (pc : PrefixCoded) (Format : Time → String)
    (sort : List DateRangeFacet → List DateRangeFacet) (fb : DateTimeFacetBuilder)
    (iter : List (String × Int)) (hr : Reachable pc fb) (hs : IsSort sort)
    (hi : iter.Perm fb.termsCount) (hn : 0 ≤ fb.size) :
    ∃ res, Result Format sort fb iter = .ok res ∧
      res.DateRanges.length = min fb.size.toNat (numMatched fb) ∧
      ∀ e ∈ res.DateRanges, ∀ name r, getList name fb.ranges = some r →
        0 < countOf fb name → name ∉ res.DateRanges.map (fun d => d.Name) →
          countOf fb name ≤ e.Count := by
  obtain ⟨res, hres⟩ := Result_returns pc Format sort fb iter hr hi hn
  obtain ⟨cands, hmap, _, hshape⟩ := Result_ok_shape pc Format sort fb iter hr hi res hres
  have hinv := Inv_of_Reachable pc fb hr
  have hlen : (sort cands).length = fb.termsCount.length := by
    rw [(hs cands).1.length_eq, ← hi.length_eq, ← hmap, List.length_map]
  have hkept : res.DateRanges = (sort cands).take fb.size.toNat := by rw [hshape]
  refine ⟨res, hres, ?_, ?_⟩
  · rw [hkept, List.length_take, hlen, numMatched_eq_length fb hinv]
  · intro e he name r _ hpos hnot
    have h1 : (name, countOf fb name) ∈ iter := hi.mem_iff.2 (mem_of_countOf_pos fb name hpos)
    rw [← hmap] at h1
    obtain ⟨d, hd, hdeq⟩ := List.mem_map.1 h1
    simp only [Prod.mk.injEq] at hdeq
    have hd2 : d ∈ (sort cands).take fb.size.toNat ++ (sort cands).drop fb.size.toNat := by
      rw [List.take_append_drop]
      exact (hs cands).1.mem_iff.2 hd
    have hdrop : d ∈ (sort cands).drop fb.size.toNat := by
      rcases List.mem_append.1 hd2 with h | h
      · exfalso
        apply hnot
        rw [hkept]
        exact List.mem_map.2 ⟨d, h, hdeq.1⟩
      · exact h
    have hpw := (hs cands).2
    rw [← List.take_append_drop fb.size.toNat (sort cands), List.pairwise_append] at hpw
    have hless := hpw.2.2 e (hkept ▸ he) d hdrop
    rw [← hdeq.2]
    exact count_le_of_not_Less e d hless

/-- C5 at the sample state: size 2 and two ranges with a count. -/
theorem Result_top_N_witness :
    Reachable sampleCodec sampleState ∧ IsSort insertionSort ∧
      sampleState.termsCount.Perm sampleState.termsCount ∧ 0 ≤ sampleState.size ∧
      ∃ res, Result sampleFormat insertionSort sampleState sampleState.termsCount = .ok res ∧
        res.DateRanges.length = min sampleState.size.toNat (numMatched sampleState) ∧
        ∀ e ∈ res.DateRanges, ∀ name r, getList name sampleState.ranges = some r →
          0 < countOf sampleState name → name ∉ res.DateRanges.map (fun d => d.Name) →
            countOf sampleState name ≤ e.Count :=
  ⟨sampleState_reachable, insertionSort_isSort, List.Perm.refl _, by decide,
    Result_top_N sampleCodec sampleFormat insertionSort sampleState sampleState.termsCount
      sampleState_reachable insertionSort_isSort (List.Perm.refl _) (by decide)⟩

/-- C7: every entry of a list `Result` returns has a count of at least one,
carries the accumulated count of its name, and names a registered range; no
name appears twice; when the size is at least the number of ranges with a
count above zero, every such range appears with exactly its count; and a
name whose count is zero is never emitted.  `Result` does return a list
whenever the size is not negative. -/
theorem Result_emits_counted_ranges (pc : PrefixCoded) (Format : Time → String)
    (sort : List DateRangeFacet → List DateRangeFacet) (fb : DateTimeFacetBuilder)
    (iter : List (String × Int)) (hr : Reachable pc fb) (hs : IsSort sort)
    (hi : iter.Perm fb.termsCount) :
    (0 ≤ fb.size → ∃ res, Result Format sort fb iter = .ok res) ∧
      ∀ res, Result Format sort fb iter = .ok res →
        (∀ e ∈ res.DateRanges, 1 ≤ e.Count ∧ e.Count = countOf fb e.Name ∧
          ∃ r, getList e.Name fb.ranges = some r) ∧
        (res.DateRanges.map (fun d => d.Name)).Nodup ∧
        ((numMatched fb : Int) ≤ fb.size →
          ∀ name r, getList name fb.ranges = some r → 0 < countOf fb name →
            ∃ e ∈ res.DateRanges, e.Name = name ∧ e.Count = countOf fb name) ∧
        (∀ name, countOf fb name = 0 → name ∉ res.DateRanges.map (fun d => d.Name)) := by
  refine ⟨Result_returns pc Format sort fb iter hr hi, ?_⟩
  intro res hres
  obtain ⟨cands, hmap, _, hshape⟩ := Result_ok_shape pc Format sort fb iter hr hi res hres
  have hinv := Inv_of_Reachable pc fb hr
  have hkept : res.DateRanges = (sort cands).take fb.size.toNat := by rw [hshape]
  have hmem : ∀ e ∈ res.DateRanges, (e.Name, e.Count) ∈ fb.termsCount ∧ 1 ≤ e.Count := by
    intro e he
    rw [hkept] at he
    exact cands_counts_nonneg fb iter cands (sort cands) hinv hi hmap (hs cands).1 e
      (List.mem_of_mem_take he)
  have hentry : ∀ e ∈ res.DateRanges, 1 ≤ e.Count ∧ e.Count = countOf fb e.Name ∧
      ∃ r, getList e.Name fb.ranges = some r := by
    intro e he
    obtain ⟨h1, h2⟩ := hmem e he
    refine ⟨h2, (countOf_of_mem fb hinv e.Name e.Count h1).symm, ?_⟩
    apply getList_isSome_of_mem_keys
    apply hinv.2.1
    exact List.mem_map.2 ⟨_, h1, rfl⟩
  refine ⟨hentry, ?_, ?_, ?_⟩
  · have hnames : (cands.map (fun d => d.Name)).Perm (keys fb.termsCount) := by
      have : cands.map (fun d => d.Name) = iter.map Prod.fst := by
        rw [← hmap, List.map_map]
        rfl
      rw [this]
      exact hi.map _
    have hsorted : ((sort cands).map (fun d => d.Name)).Nodup :=
      (((hs cands).1.map _).trans hnames).nodup_iff.2 hinv.1.1
    rw [hkept]
    exact hsorted.sublist ((List.take_sublist _ _).map _)
  · intro hsize name r _ hpos
    have hlen : (sort cands).length = fb.termsCount.length := by
      rw [(hs cands).1.length_eq, ← hi.length_eq, ← hmap, List.length_map]
    have hall : res.DateRanges = sort cands := by
      rw [hkept]
      apply List.take_of_length_le
      rw [hlen, ← numMatched_eq_length fb hinv]
      omega
    have h1 : (name, countOf fb name) ∈ iter := hi.mem_iff.2 (mem_of_countOf_pos fb name hpos)
    rw [← hmap] at h1
    obtain ⟨d, hd, hdeq⟩ := List.mem_map.1 h1
    simp only [Prod.mk.injEq] at hdeq
    exact ⟨d, hall ▸ (hs cands).1.mem_iff.2 hd, hdeq.1, hdeq.2⟩
  · intro name h0 hin
    obtain ⟨e, he, hname⟩ := List.mem_map.1 hin
    obtain ⟨h1, h2, _⟩ := hentry e he
    have hname2 : e.Name = name := hname
    rw [hname2, h0] at h2
    omega

/-- C7 at the sample state. -/
theorem Result_emits_counted_ranges_witness :
    Reachable sampleCodec sampleState ∧ IsSort insertionSort ∧
      sampleState.termsCount.Perm sampleState.termsCount ∧
      ∃ res, Result sampleFormat insertionSort sampleState sampleState.termsCount = .ok res ∧
        ∀ e ∈ res.DateRanges, 1 ≤ e.Count ∧ e.Count = countOf sampleState e.Name ∧
          ∃ r, getList e.Name sampleState.ranges = some r :=
  ⟨sampleState_reachable, insertionSort_isSort, List.Perm.refl _,
    let h := Result_emits_counted_ranges sampleCodec sampleFormat insertionSort sampleState
      sampleState.termsCount sampleState_reachable insertionSort_isSort (List.Perm.refl _)
    (h.1 (by decide)).elim (fun res hres => ⟨res, hres, (h.2 res hres).1⟩)⟩

/-! ## The texts of the entries -/

theorem candidates_mem (Format : Time → String) (ranges : List (String × dateTimeRange))
    (iter : List (String × Int)) :
    ∀ cands, candidates Format ranges iter = .ok cands →
      ∀ e ∈ cands, ∃ r, getList e.Name ranges = some r ∧
        e.Start = (if r.start.IsZero then none else some (Format r.start)) ∧
        e.End = (if r.end_.IsZero then none else some (Format r.end_)) := by
  induction iter with
  | nil =>
    intro cands hc e he
    simp only [candidates, Except.ok.injEq] at hc
    subst hc
    cases he
  | cons p rest ih =>
    intro cands hc e he
    obtain ⟨term, count⟩ := p
    simp only [candidates] at hc
    cases hr : getList term ranges with
    | none => simp [hr] at hc
    | some r =>
      cases ht : candidates Format ranges rest with
      | error x => simp [hr, ht] at hc
      | ok tl =>
        simp only [hr, ht, Except.ok.injEq] at hc
        subst hc
        rcases List.mem_cons.1 he with h | h
        · subst h
          exact ⟨r, hr, rfl, rfl⟩
        · exact ih tl ht e h

/-- Every returned result is made of the candidates of the enumeration. -/
theorem Result_ok_cands (Format : Time → String)
    (sort : List DateRangeFacet → List DateRangeFacet) (fb : DateTimeFacetBuilder)
    (iter : List (String × Int)) (res : FacetResult)
    (hres : Result Format sort fb iter = .ok res) :
    ∃ cands, candidates Format fb.ranges iter = .ok cands ∧ 0 ≤ fb.size ∧
      res = { Field := fb.field, Total := fb.total, Missing := fb.missing,
              Other := fb.total - notOther ((sort cands).take fb.size.toNat),
              DateRanges := (sort cands).take fb.size.toNat } := by
  cases hc : candidates Format fb.ranges iter with
  | error x =>
    unfold Result at hres
    simp [hc] at hres
  | ok cands =>
    rw [Result_eq Format sort fb iter cands hc] at hres
    by_cases h0 : fb.size < 0
    · rw [if_pos h0] at hres
      cases hres
    · rw [if_neg h0] at hres
      injection hres with hres
      exact ⟨cands, rfl, by omega, hres.symm⟩

/-- C11: for every entry of a list `Result` returns, the `Start` text is absent
exactly when the start of the range registered under the entry's name is the
zero sentinel, and otherwise it is the formatting of that start; the same for
`End` and the end of the range.  `Result` does return a list whenever the
size is not negative. -/
theorem Result_entry_texts (pc : PrefixCoded) (Format : Time → String)
    (sort : List DateRangeFacet → List DateRangeFacet) (fb : DateTimeFacetBuilder)
    (iter : List (String × Int)) (hr : Reachable pc fb) (hs : IsSort sort)
    (hi : iter.Perm fb.termsCount) :
    (0 ≤ fb.size → ∃ res, Result Format sort fb iter = .ok res) ∧
      ∀ res, Result Format sort fb iter = .ok res →
        ∀ e ∈ res.DateRanges, ∃ r, getList e.Name fb.ranges = some r ∧
          (e.Start = none ↔ r.start.IsZero = true) ∧
          (r.start.IsZero = false → e.Start = some (Format r.start)) ∧
          (e.End = none ↔ r.end_.IsZero = true) ∧
          (r.end_.IsZero = false → e.End = some (Format r.end_)) := by
  refine ⟨Result_returns pc Format sort fb iter hr hi, ?_⟩
  intro res hres e he
  obtain ⟨cands, hc, _, hshape⟩ := Result_ok_cands Format sort fb iter res hres
  have he2 : e ∈ cands := by
    rw [hshape] at he
    exact (hs cands).1.mem_iff.1 (List.mem_of_mem_take he)
  obtain ⟨r, hr1, hstart, hend⟩ := candidates_mem Format fb.ranges iter cands hc e he2
  refine ⟨r, hr1, ?_, ?_, ?_, ?_⟩
  · rw [hstart]
    cases r.start.IsZero <;> simp
  · intro hz
    rw [hstart, hz]
    rfl
  · rw [hend]
    cases r.end_.IsZero <;> simp
  · intro hz
    rw [hend, hz]
    rfl

/-- C11 at the sample state: `old` has no start and `new` has no end. -/
theorem Result_entry_texts_witness :
    Reachable sampleCodec sampleState ∧ IsSort insertionSort ∧
      sampleState.termsCount.Perm sampleState.termsCount ∧
      ∃ res, Result sampleFormat insertionSort sampleState sampleState.termsCount = .ok res ∧
        ∀ e ∈ res.DateRanges, ∃ r, getList e.Name sampleState.ranges = some r ∧
          (e.Start = none ↔ r.start.IsZero = true) ∧
          (r.start.IsZero = false → e.Start = some (sampleFormat r.start)) ∧
          (e.End = none ↔ r.end_.IsZero = true) ∧
          (r.end_.IsZero = false → e.End = some (sampleFormat r.end_)) :=
  ⟨sampleState_reachable, insertionSort_isSort, List.Perm.refl _,
    let h := Result_entry_texts sampleCodec sampleFormat insertionSort sampleState
      sampleState.termsCount sampleState_reachable insertionSort_isSort (List.Perm.refl _)
    (h.1 (by decide)).elim (fun res hres => ⟨res, hres, h.2 res hres⟩)⟩

/-! ## Ranges that match everything and ranges that match nothing -/

theorem rangeMatches_open (r : dateTimeRange) (t : Time) (h1 : r.start.IsZero = true)
    (h2 : r.end_.IsZero = true) : rangeMatches r t = true := by
  simp [rangeMatches, h1, h2]

theorem matchCount_open (pc : PrefixCoded) (terms : List String) (r : dateTimeRange)
    (h1 : r.start.IsZero = true) (h2 : r.end_.IsZero = true) :
    matchCount pc terms r = (terms.filter (isEligible pc)).length := by
  induction terms with
  | nil => rfl
  | cons term rest ih =>
    rw [matchCount_cons, ih]
    cases hd : decodeInstant pc term with
    | none => simp [List.filter_cons, isEligible, hd]
    | some t =>
      simp only [rangeMatches_open r t h1 h2, if_true, List.filter_cons, isEligible, hd,
        Option.isSome_some, List.length_cons]
      omega

theorem rangeMatches_empty (r : dateTimeRange) (t : Time) (h1 : r.start.IsZero = false)
    (h2 : r.end_.IsZero = false) (h3 : r.end_.ns ≤ r.start.ns) : rangeMatches r t = false := by
  cases hm : rangeMatches r t with
  | false => rfl
  | true =>
    exfalso
    obtain ⟨ha, hb⟩ := (rangeMatches_iff r t).1 hm
    simp only [Time.IsZero, decide_eq_false_iff_not] at h1 h2
    rcases ha with ha | ha
    · exact h1 ha
    · rcases hb with hb | hb
      · exact h2 hb
      · omega

theorem matchCount_empty (pc : PrefixCoded) (terms : List String) (r : dateTimeRange)
    (h1 : r.start.IsZero = false) (h2 : r.end_.IsZero = false) (h3 : r.end_.ns ≤ r.start.ns) :
    matchCount pc terms r = 0 := by
  induction terms with
  | nil => rfl
  | cons term rest ih =>
    rw [matchCount_cons, ih]
    cases hd : decodeInstant pc term with
    | none => rfl
    | some t => simp [rangeMatches_empty r t h1 h2 h3]

theorem sum_map_filter_of_zero {α : Type} (l : List α) (f : α → Int) (q : α → Bool)
    (h : ∀ x ∈ l, q x = false → f x = 0) :
    (l.map f).sum = ((l.filter q).map f).sum := by
  induction l with
  | nil => rfl
  | cons x xs ih =>
    have ih2 := ih (fun y hy => h y (List.mem_cons_of_mem _ hy))
    cases hq : q x with
    | true => simp [List.filter_cons, hq, ih2]
    | false => simp [List.filter_cons, hq, ih2, h x (List.mem_cons_self _ _) hq]

/-- C14: a range registered with both ends unbounded counts every eligible
value: when the field is present with `k` eligible values, `Update` raises the
count of that range by exactly `k`. -/
theorem Update_open_range_counts_all (pc : PrefixCoded) (fb : DateTimeFacetBuilder)
    (ft : String → Option (List String)) (terms : List String) (name : String)
    (r : dateTimeRange) (hmap : fb.WF) (hft : ft fb.field = some terms)
    (hreg : getList name fb.ranges = some r) (h1 : r.start.IsZero = true)
    (h2 : r.end_.IsZero = true) :
    countOf (Update pc fb ft) name =
      countOf fb name + ((terms.filter (isEligible pc)).length : Int) := by
  have hU : Update pc fb ft = termLoop pc terms fb := by simp [Update, hft]
  rw [hU, termLoop_countOf pc name terms fb hmap.2, hreg]
  simp only [matchCount_open pc terms r h1 h2]

/-- C14 at the builder with the range `all` and the sample document, which
has two eligible values. -/
theorem Update_open_range_counts_all_witness :
    openRangeBuilder.WF ∧
      sampleDoc openRangeBuilder.field = some ["t5", "bad", "t10", "coarse"] ∧
      getList "all" openRangeBuilder.ranges = some { start := zeroTime, end_ := zeroTime } ∧
      zeroTime.IsZero = true ∧
      countOf (Update sampleCodec openRangeBuilder sampleDoc) "all" =
        countOf openRangeBuilder "all" +
          ((["t5", "bad", "t10", "coarse"].filter (isEligible sampleCodec)).length : Int) :=
  ⟨by decide, by decide, by decide, by decide,
    Update_open_range_counts_all sampleCodec openRangeBuilder sampleDoc
      ["t5", "bad", "t10", "coarse"] "all" { start := zeroTime, end_ := zeroTime }
      (by decide) (by decide) (by decide) (by decide) (by decide)⟩

/-- C19: a registered range with both ends bounded and `start ≥ end` matches no
instant; `Update` leaves its count as it was for every document, and `total`
grows by the matches of the other ranges only. -/
theorem Update_empty_range_never_counts (pc : PrefixCoded) (fb : DateTimeFacetBuilder)
    (name : String) (r : dateTimeRange) (hmap : fb.WF)
    (hreg : getList name fb.ranges = some r) (h1 : r.start.IsZero = false)
    (h2 : r.end_.IsZero = false) (h3 : r.end_.ns ≤ r.start.ns) :
    (∀ t, rangeMatches r t = false) ∧
      (∀ ft, countOf (Update pc fb ft) name = countOf fb name) ∧
      (∀ ft, ft fb.field = none → (Update pc fb ft).total = fb.total) ∧
      (∀ ft terms, ft fb.field = some terms →
        (Update pc fb ft).total =
          fb.total + ((fb.ranges.filter (fun p => decide (p.1 ≠ name))).map
            (fun p => (matchCount pc terms p.2 : Int))).sum) := by
  refine ⟨fun t => rangeMatches_empty r t h1 h2 h3, ?_, ?_, ?_⟩
  · intro ft
    cases hft : ft fb.field with
    | none => simp [Update, hft, countOf]
    | some terms =>
      have hU : Update pc fb ft = termLoop pc terms fb := by simp [Update, hft]
      rw [hU, termLoop_countOf pc name terms fb hmap.2, hreg]
      simp [matchCount_empty pc terms r h1 h2 h3]
  · intro ft hft
    simp [Update, hft]
  · intro ft terms hft
    have hU : Update pc fb ft = termLoop pc terms fb := by simp [Update, hft]
    rw [hU, termLoop_total]
    congr 1
    apply sum_map_filter_of_zero
    intro p hp hq
    have hname : p.1 = name := by simpa using hq
    have hp2 : (name, p.2) ∈ fb.ranges := by
      rw [← hname]
      exact hp
    have hr : some p.2 = some r := by
      rw [← getList_of_mem name p.2 fb.ranges hmap.2 hp2, hreg]
    injection hr with hr
    rw [hr, matchCount_empty pc terms r h1 h2 h3]
    rfl

/-- C19 at the state where `old` runs from 20 ns back to 10 ns. -/
theorem Update_empty_range_never_counts_witness :
    overwrittenState.WF ∧
      getList "old" overwrittenState.ranges =
        some { start := Time.Unix 0 20, end_ := Time.Unix 0 10 } ∧
      (Time.Unix 0 20).IsZero = false ∧ (Time.Unix 0 10).IsZero = false ∧
      (Time.Unix 0 10).ns ≤ (Time.Unix 0 20).ns ∧
      countOf (Update sampleCodec overwrittenState sampleDoc) "old" =
        countOf overwrittenState "old" :=
  ⟨by decide, by decide, by decide, by decide, by decide,
    (Update_empty_range_never_counts sampleCodec overwrittenState "old"
      { start := Time.Unix 0 20, end_ := Time.Unix 0 10 } (by decide) (by decide) (by decide)
      (by decide) (by decide)).2.1 sampleDoc⟩

/-! ## Invariants and panics -/

theorem overwrittenState_reachable : Reachable sampleCodec overwrittenState :=
  Reachable.addRange "old" (Time.Unix 0 20) (Time.Unix 0 10) sampleState_reachable

theorem negativeSizeState_reachable : Reachable sampleCodec negativeSizeState :=
  Reachable.update sampleDoc
    (Reachable.addRange "new" (Time.Unix 0 10) zeroTime
      (Reachable.addRange "old" zeroTime (Time.Unix 0 10) (Reachable.new "date" (-3))))

/-- C16: in every state reached from `NewDateTimeFacetBuilder` by `AddRange` and
`Update` calls, in any order, `total` is the sum of the stored counts and
every stored count is at least one. -/
theorem Reachable_total_is_sum (pc : PrefixCoded) (fb : DateTimeFacetBuilder)
    (hr : Reachable pc fb) :
    fb.total = (fb.termsCount.map Prod.snd).sum ∧ ∀ p ∈ fb.termsCount, 1 ≤ p.2 :=
  ⟨(Inv_of_Reachable pc fb hr).2.2.2, (Inv_of_Reachable pc fb hr).2.2.1⟩

/-- C16 at a state in which a range was registered again after it had been
counted. -/
theorem Reachable_total_is_sum_witness :
    Reachable sampleCodec overwrittenState ∧
      overwrittenState.total = (overwrittenState.termsCount.map Prod.snd).sum ∧
      ∀ p ∈ overwrittenState.termsCount, 1 ≤ p.2 :=
  ⟨overwrittenState_reachable,
    Reachable_total_is_sum sampleCodec overwrittenState overwrittenState_reachable⟩

/-- C17: in every reachable state each name with a stored count is registered,
so the lookup `fb.ranges[term]` of `Result` finds a range for every entry it
visits and `Result` never panics on a nil range. -/
theorem Result_range_lookup_succeeds (pc : PrefixCoded) (fb : DateTimeFacetBuilder)
    (hr : Reachable pc fb) :
    (∀ k ∈ keys fb.termsCount, ∃ r, getList k fb.ranges = some r) ∧
      ∀ (Format : Time → String) (sort : List DateRangeFacet → List DateRangeFacet)
        (iter : List (String × Int)), iter.Perm fb.termsCount →
          (∃ cands, candidates Format fb.ranges iter = .ok cands) ∧
          Result Format sort fb iter ≠ .error Panic.nilDereference := by
  have hinv := Inv_of_Reachable pc fb hr
  refine ⟨fun k hk => getList_isSome_of_mem_keys k fb.ranges (hinv.2.1 k hk), ?_⟩
  intro Format sort iter hi
  obtain ⟨cands, hc, _⟩ := candidates_of_Inv Format fb iter hinv hi
  refine ⟨⟨cands, hc⟩, ?_⟩
  rw [Result_eq Format sort fb iter cands hc]
  split <;> simp

/-- C17 at the state with a range registered again after counting. -/
theorem Result_range_lookup_succeeds_witness :
    Reachable sampleCodec overwrittenState ∧
      ∀ k ∈ keys overwrittenState.termsCount, ∃ r, getList k overwrittenState.ranges = some r :=
  ⟨overwrittenState_reachable,
    (Result_range_lookup_succeeds sampleCodec overwrittenState overwrittenState_reachable).1⟩

/-- C18: on every reachable state of a builder whose size is negative `Result`
returns no result: the guard `size < len` holds and the slice `[:size]`
panics. -/
theorem Result_negative_size_panics (pc : PrefixCoded) (Format : Time → String)
    (sort : List DateRangeFacet → List DateRangeFacet) (fb : DateTimeFacetBuilder)
    (iter : List (String × Int)) (hr : Reachable pc fb) (hi : iter.Perm fb.termsCount)
    (hneg : fb.size < 0) :
    Result Format sort fb iter = .error Panic.sliceBoundsOutOfRange ∧
      (∀ cands, candidates Format fb.ranges iter = .ok cands →
        fb.size < ((sort cands).length : Int)) ∧
      ¬ ∃ res, Result Format sort fb iter = .ok res := by
  obtain ⟨cands, _, hres⟩ := Result_of_Reachable pc Format sort fb iter hr hi
  rw [if_pos hneg] at hres
  refine ⟨hres, ?_, ?_⟩
  · intro c _
    omega
  · rintro ⟨res, h⟩
    rw [hres] at h
    cases h

/-- C18 at a builder of size -3 that has counted two matches. -/
theorem Result_negative_size_panics_witness :
    Reachable sampleCodec negativeSizeState ∧
      negativeSizeState.termsCount.Perm negativeSizeState.termsCount ∧
      negativeSizeState.size < 0 ∧
      Result sampleFormat insertionSort negativeSizeState negativeSizeState.termsCount =
        .error Panic.sliceBoundsOutOfRange :=
  ⟨negativeSizeState_reachable, List.Perm.refl _, by decide,
    (Result_negative_size_panics sampleCodec sampleFormat insertionSort negativeSizeState
      negativeSizeState.termsCount negativeSizeState_reachable (List.Perm.refl _)
      (by decide)).1⟩

/-! ## Calling `Result` twice -/

theorem candidates_eq_filterMap (Format : Time → String)
    (ranges : List (String × dateTimeRange)) (iter : List (String × Int)) :
    ∀ cands, candidates Format ranges iter = .ok cands →
      cands = iter.filterMap (candidateOf Format ranges) := by
  induction iter with
  | nil =>
    intro cands hc
    simp only [candidates, Except.ok.injEq] at hc
    simp [← hc]
  | cons p rest ih =>
    intro cands hc
    obtain ⟨term, count⟩ := p
    simp only [candidates] at hc
    cases hr : getList term ranges with
    | none => simp [hr] at hc
    | some r =>
      cases ht : candidates Format ranges rest with
      | error x => simp [hr, ht] at hc
      | ok tl =>
        simp only [hr, ht, Except.ok.injEq] at hc
        rw [← hc, ih tl ht]
        simp [List.filterMap_cons, candidateOf, hr]

theorem candidates_perm (Format : Time → String) (ranges : List (String × dateTimeRange))
    (iter1 iter2 : List (String × Int)) (c1 c2 : List DateRangeFacet)
    (hp : iter1.Perm iter2) (h1 : candidates Format ranges iter1 = .ok c1)
    (h2 : candidates Format ranges iter2 = .ok c2) : c1.Perm c2 := by
  rw [candidates_eq_filterMap Format ranges iter1 c1 h1,
    candidates_eq_filterMap Format ranges iter2 c2 h2]
  exact hp.filterMap _

/-- Two rearrangements of one list, both in the order of the result list and
without a repeated name, are the same list. -/
theorem sorted_perm_unique :
    ∀ l1 l2 : List DateRangeFacet, l1.Perm l2 → (l1.map (fun d => d.Name)).Nodup →
      l1.Pairwise (fun a b => DateRangeFacets.Less b a = false) →
      l2.Pairwise (fun a b => DateRangeFacets.Less b a = false) → l1 = l2 := by
  intro l1
  induction l1 with
  | nil =>
    intro l2 hp _ _ _
    exact hp.nil_eq
  | cons a t1 ih =>
    intro l2 hp hnd hs1 hs2
    cases l2 with
    | nil => exact absurd hp.length_eq (by simp)
    | cons b t2 =>
      simp only [List.map_cons, List.nodup_cons] at hnd
      obtain ⟨ha1, hs1t⟩ := List.pairwise_cons.1 hs1
      obtain ⟨hb2, hs2t⟩ := List.pairwise_cons.1 hs2
      have hb : b ∈ a :: t1 := hp.mem_iff.2 (List.mem_cons_self _ _)
      have ha : a ∈ b :: t2 := hp.mem_iff.1 (List.mem_cons_self _ _)
      have hab : a = b := by
        rcases List.mem_cons.1 hb with h | h
        · exact h.symm
        · rcases List.mem_cons.1 ha with h' | h'
          · exact h'
          · exfalso
            apply hnd.1
            rw [(same_key_of_not_Less a b (hb2 a h') (ha1 b h)).2]
            exact List.mem_map.2 ⟨b, h, rfl⟩
      subst hab
      rw [ih t2 hp.cons_inv hnd.2 hs1t hs2t]

/-- On a reachable state the result depends neither on the order in which the
map is enumerated nor on which sort is used. -/
theorem Result_unique (pc : PrefixCoded) (Format : Time → String)
    (sort1 sort2 : List DateRangeFacet → List DateRangeFacet) (fb : DateTimeFacetBuilder)
    (iter1 iter2 : List (String × Int)) (hr : Reachable pc fb) (hs1 : IsSort sort1)
    (hs2 : IsSort sort2) (h1 : iter1.Perm fb.termsCount) (h2 : iter2.Perm fb.termsCount) :
    Result Format sort2 fb iter2 = Result Format sort1 fb iter1 := by
  have hinv := Inv_of_Reachable pc fb hr
  obtain ⟨c1, hc1, hm1⟩ := candidates_of_Inv Format fb iter1 hinv h1
  obtain ⟨c2, hc2, hm2⟩ := candidates_of_Inv Format fb iter2 hinv h2
  have hperm : (sort2 c2).Perm (sort1 c1) :=
    ((hs2 c2).1.trans (candidates_perm Format fb.ranges iter2 iter1 c2 c1
      (h2.trans h1.symm) hc2 hc1)).trans (hs1 c1).1.symm
  have hnames : (c2.map (fun d => d.Name)).Perm (keys fb.termsCount) := by
    have : c2.map (fun d => d.Name) = iter2.map Prod.fst := by
      rw [← hm2, List.map_map]
      rfl
    rw [this]
    exact h2.map _
  have hnd : ((sort2 c2).map (fun d => d.Name)).Nodup :=
    (((hs2 c2).1.map _).trans hnames).nodup_iff.2 hinv.1.1
  have heq : sort2 c2 = sort1 c1 :=
    sorted_perm_unique _ _ hperm hnd (hs2 c2).2 (hs1 c1).2
  rw [Result_eq Format sort1 fb iter1 c1 hc1, Result_eq Format sort2 fb iter2 c2 hc2, heq]

theorem candidatesCall_eq (Format : Time → String) (fb : DateTimeFacetBuilder)
    (iter : List (String × Int)) :
    ∀ built, candidatesCall Format fb built iter =
      (fb, match candidates Format fb.ranges iter with
           | .ok cands => .ok (built ++ cands)
           | .error e => .error e) := by
  induction iter with
  | nil => intro built; simp [candidatesCall, candidates]
  | cons p rest ih =>
    intro built
    obtain ⟨term, count⟩ := p
    simp only [candidatesCall, candidates]
    cases hr : getList term fb.ranges with
    | none => rfl
    | some r =>
      simp only []
      rw [ih]
      cases candidates Format fb.ranges rest with
      | error e => rfl
      | ok tl => simp

/-- The state-passing form of `Result` hands back the receiver and returns
what `Result` returns. -/
theorem ResultCall_eq (Format : Time → String)
    (sort : List DateRangeFacet → List DateRangeFacet) (fb : DateTimeFacetBuilder)
    (iter : List (String × Int)) :
    ResultCall Format sort fb iter = (fb, Result Format sort fb iter) := by
  unfold ResultCall Result
  rw [candidatesCall_eq]
  cases candidates Format fb.ranges iter with
  | error e => rfl
  | ok cands =>
    simp only [List.nil_append]
    split_ifs <;> rfl

/-- Equal counts are listed by name: in the sample state `old` and `new` both
have count 1, and `new` comes first whichever way the map is enumerated. -/
theorem Result_tie_by_name :
    (Result sampleFormat insertionSort sampleState [("old", 1), ("new", 1)]).map
        (fun res => res.DateRanges.map (fun d => d.Name)) = .ok ["new", "old"] ∧
      (Result sampleFormat insertionSort sampleState [("new", 1), ("old", 1)]).map
        (fun res => res.DateRanges.map (fun d => d.Name)) = .ok ["new", "old"] := by
  decide

/-- C12: `Result` leaves the builder as it was (counts, `total`, `missing`,
ranges, field and size), and a second call with no `Update` in between
returns exactly what the first returned: the same field name, `total`,
`missing`, `other` and the same entries in the same order, whatever the order
in which either call enumerates the map. -/
theorem Result_twice (pc : PrefixCoded) (Format : Time → String)
    (sort : List DateRangeFacet → List DateRangeFacet) (fb : DateTimeFacetBuilder)
    (iter1 iter2 : List (String × Int)) (hr : Reachable pc fb) (hs : IsSort sort)
    (h1 : iter1.Perm fb.termsCount) (h2 : iter2.Perm fb.termsCount) :
    (ResultCall Format sort fb iter1).1 = fb ∧
      (ResultCall Format sort (ResultCall Format sort fb iter1).1 iter2).1 = fb ∧
      (ResultCall Format sort (ResultCall Format sort fb iter1).1 iter2).2 =
        (ResultCall Format sort fb iter1).2 ∧
      Result Format sort fb iter2 = Result Format sort fb iter1 := by
  have hu := Result_unique pc Format sort sort fb iter1 iter2 hr hs hs h1 h2
  simp only [ResultCall_eq]
  exact ⟨trivial, trivial, hu, hu⟩

/-- C12 at the sample state, where `old` and `new` both have count 1: the map
enumerated forwards by the first call and backwards by the second. -/
theorem Result_twice_witness :
    Reachable sampleCodec sampleState ∧ IsSort insertionSort ∧
      sampleState.termsCount.Perm sampleState.termsCount ∧
      sampleState.termsCount.reverse.Perm sampleState.termsCount ∧
      (ResultCall sampleFormat insertionSort sampleState sampleState.termsCount).1 =
        sampleState ∧
      (ResultCall sampleFormat insertionSort
          (ResultCall sampleFormat insertionSort sampleState sampleState.termsCount).1
          sampleState.termsCount.reverse).2 =
        (ResultCall sampleFormat insertionSort sampleState sampleState.termsCount).2 :=
  ⟨sampleState_reachable, insertionSort_isSort, List.Perm.refl _, List.reverse_perm _,
    (Result_twice sampleCodec sampleFormat insertionSort sampleState sampleState.termsCount
      sampleState.termsCount.reverse sampleState_reachable insertionSort_isSort
      (List.Perm.refl _) (List.reverse_perm _)).1,
    (Result_twice sampleCodec sampleFormat insertionSort sampleState sampleState.termsCount
      sampleState.termsCount.reverse sampleState_reachable insertionSort_isSort
      (List.Perm.refl _) (List.reverse_perm _)).2.2.1⟩

/-! ## Feeding documents in sequence, and merging builders -/

theorem Update_frame (pc : PrefixCoded) (fb : DateTimeFacetBuilder)
    (ft : String → Option (List String)) :
    (Update pc fb ft).size = fb.size ∧ (Update pc fb ft).field = fb.field ∧
      (Update pc fb ft).ranges = fb.ranges := by
  unfold Update
  cases ft fb.field with
  | none => exact ⟨rfl, rfl, rfl⟩
  | some terms =>
    obtain ⟨h1, h2, _, h4⟩ := termLoop_frame pc terms fb
    exact ⟨h1, h2, h4⟩

theorem Update_countOf_add (pc : PrefixCoded) (fb : DateTimeFacetBuilder)
    (ft : String → Option (List String)) (name : String) (hnd : (keys fb.ranges).Nodup) :
    countOf (Update pc fb ft) name =
      countOf fb name + docIncrement pc fb.field fb.ranges name ft := by
  unfold Update docIncrement
  cases hft : ft fb.field with
  | none => simp [countOf]
  | some terms =>
    simp only []
    rw [termLoop_countOf pc name terms fb hnd]
    cases getList name fb.ranges <;> rfl

theorem Update_total_add (pc : PrefixCoded) (fb : DateTimeFacetBuilder)
    (ft : String → Option (List String)) :
    (Update pc fb ft).total = fb.total + docTotal pc fb.field fb.ranges ft := by
  unfold Update docTotal
  cases hft : ft fb.field with
  | none => simp
  | some terms => exact termLoop_total pc terms fb

theorem Update_missing_add (pc : PrefixCoded) (fb : DateTimeFacetBuilder)
    (ft : String → Option (List String)) :
    (Update pc fb ft).missing = fb.missing + docMissing fb.field ft := by
  unfold Update docMissing
  cases hft : ft fb.field with
  | none => rfl
  | some terms =>
    simp only []
    rw [(termLoop_frame pc terms fb).2.2.1]
    simp

theorem runDocs_frame (pc : PrefixCoded) (docs : List (String → Option (List String))) :
    ∀ fb : DateTimeFacetBuilder,
      (runDocs pc fb docs).size = fb.size ∧ (runDocs pc fb docs).field = fb.field ∧
        (runDocs pc fb docs).ranges = fb.ranges := by
  induction docs with
  | nil => intro fb; exact ⟨rfl, rfl, rfl⟩
  | cons ft rest ih =>
    intro fb
    obtain ⟨h1, h2, h3⟩ := ih (Update pc fb ft)
    obtain ⟨g1, g2, g3⟩ := Update_frame pc fb ft
    exact ⟨h1.trans g1, h2.trans g2, h3.trans g3⟩

/-- What a sequence of documents adds to a state depends on the field and the
ranges of the state only, not on what it has counted before. -/
theorem runDocs_add (pc : PrefixCoded) (docs : List (String → Option (List String))) :
    ∀ fb : DateTimeFacetBuilder, (keys fb.ranges).Nodup →
      (∀ name, countOf (runDocs pc fb docs) name =
        countOf fb name + (docs.map (docIncrement pc fb.field fb.ranges name)).sum) ∧
      (runDocs pc fb docs).total =
        fb.total + (docs.map (docTotal pc fb.field fb.ranges)).sum ∧
      (runDocs pc fb docs).missing = fb.missing + (docs.map (docMissing fb.field)).sum := by
  induction docs with
  | nil => intro fb _; simp [runDocs]
  | cons ft rest ih =>
    intro fb hnd
    obtain ⟨_, g2, g3⟩ := Update_frame pc fb ft
    have hnd2 : (keys (Update pc fb ft).ranges).Nodup := by rw [g3]; exact hnd
    obtain ⟨i1, i2, i3⟩ := ih (Update pc fb ft) hnd2
    rw [g2, g3] at i1 i2
    rw [g2] at i3
    refine ⟨?_, ?_, ?_⟩
    · intro name
      show countOf (runDocs pc (Update pc fb ft) rest) name = _
      rw [i1 name, Update_countOf_add pc fb ft name hnd, List.map_cons, List.sum_cons]
      ring
    · show (runDocs pc (Update pc fb ft) rest).total = _
      rw [i2, Update_total_add, List.map_cons, List.sum_cons]
      ring
    · show (runDocs pc (Update pc fb ft) rest).missing = _
      rw [i3, Update_missing_add, List.map_cons, List.sum_cons]
      ring

theorem runDocs_append (pc : PrefixCoded) (fb : DateTimeFacetBuilder)
    (A B : List (String → Option (List String))) :
    runDocs pc fb (A ++ B) = runDocs pc (runDocs pc fb A) B := by
  simp [runDocs, List.foldl_append]

theorem Reachable_runDocs (pc : PrefixCoded) (docs : List (String → Option (List String))) :
    ∀ fb : DateTimeFacetBuilder, Reachable pc fb → Reachable pc (runDocs pc fb docs) := by
  induction docs with
  | nil => intro fb h; exact h
  | cons ft rest ih => intro fb h; exact ih _ (Reachable.update ft h)

theorem registerAll_spec (pc : PrefixCoded) (rs : List (String × Time × Time)) :
    ∀ fb : DateTimeFacetBuilder, Reachable pc fb →
      Reachable pc (registerAll fb rs) ∧ (registerAll fb rs).termsCount = fb.termsCount ∧
        (registerAll fb rs).total = fb.total ∧ (registerAll fb rs).missing = fb.missing ∧
        (registerAll fb rs).field = fb.field ∧ (registerAll fb rs).size = fb.size := by
  induction rs with
  | nil => intro fb h; exact ⟨h, rfl, rfl, rfl, rfl, rfl⟩
  | cons r rest ih =>
    intro fb h
    exact ih (AddRange fb r.1 r.2.1 r.2.2) (Reachable.addRange r.1 r.2.1 r.2.2 h)

theorem getD_mergeCounts (k : String) (b : List (String × Int)) :
    ∀ a : List (String × Int), (keys b).Nodup →
      (getList k (mergeCounts a b)).getD 0 = (getList k a).getD 0 + (getList k b).getD 0 := by
  induction b with
  | nil => intro a _; simp [mergeCounts, getList]
  | cons p rest ih =>
    intro a hnd
    obtain ⟨k', v'⟩ := p
    have hnd2 : k' ∉ keys rest ∧ (keys rest).Nodup := by simpa [keys] using hnd
    have hstep : mergeCounts a ((k', v') :: rest) =
        mergeCounts (setList k' ((getList k' a).getD 0 + v') a) rest := rfl
    rw [hstep, ih _ hnd2.2]
    by_cases hk : k' = k
    · subst hk
      rw [getList_setList_self, getList_eq_none_of_not_mem k' rest hnd2.1]
      simp [getList]
    · rw [getList_setList_other k' k _ a (fun e => hk e.symm)]
      simp [getList, hk]

theorem nodup_keys_mergeCounts (b : List (String × Int)) :
    ∀ a : List (String × Int), (keys a).Nodup → (keys (mergeCounts a b)).Nodup := by
  induction b with
  | nil => intro a h; exact h
  | cons p rest ih => intro a h; exact ih _ (nodup_keys_setList _ _ a h)

theorem mergeCounts_pos (b : List (String × Int)) :
    ∀ a : List (String × Int), (∀ p ∈ a, 1 ≤ p.2) → (∀ p ∈ b, 1 ≤ p.2) →
      ∀ p ∈ mergeCounts a b, 1 ≤ p.2 := by
  induction b with
  | nil => intro a ha _; exact ha
  | cons q rest ih =>
    intro a ha hb
    apply ih _ _ (fun p hp => hb p (List.mem_cons_of_mem _ hp))
    intro p hp
    rcases mem_setList q.1 _ a p hp with e | e
    · have hq := hb q (List.mem_cons_self _ _)
      have h0 : 0 ≤ (getList q.1 a).getD 0 := by
        cases hg : getList q.1 a with
        | none => simp
        | some c =>
          have := ha (q.1, c) (getList_mem q.1 c a hg)
          simp only [Option.getD_some]
          simp only [] at this
          omega
      rw [e]
      show 1 ≤ (getList q.1 a).getD 0 + q.2
      omega
    · exact ha p e

/-- Two count maps with the same reads and no stored zero hold the same
entries. -/
theorem perm_of_reads_eq (l1 l2 : List (String × Int)) (h1 : (keys l1).Nodup)
    (h2 : (keys l2).Nodup) (p1 : ∀ p ∈ l1, 1 ≤ p.2) (p2 : ∀ p ∈ l2, 1 ≤ p.2)
    (he : ∀ k, (getList k l1).getD 0 = (getList k l2).getD 0) : l1.Perm l2 := by
  have half : ∀ (m1 m2 : List (String × Int)), (keys m2).Nodup → (∀ p ∈ m1, 1 ≤ p.2) →
      (keys m1).Nodup → (∀ k, (getList k m1).getD 0 = (getList k m2).getD 0) →
      ∀ p ∈ m1, p ∈ m2 := by
    intro m1 m2 hm2 hp1 hm1 hr p hp
    obtain ⟨k, c⟩ := p
    have hg := getList_of_mem k c m1 hm1 hp
    have hc := hp1 (k, c) hp
    have hread := hr k
    rw [hg] at hread
    cases hg2 : getList k m2 with
    | none =>
      rw [hg2] at hread
      simp only [Option.getD_some, Option.getD_none] at hread
      simp only [] at hc
      omega
    | some c2 =>
      rw [hg2] at hread
      simp only [Option.getD_some] at hread
      rw [hread]
      exact getList_mem k c2 m2 hg2
  rw [List.perm_ext_iff_of_nodup (List.Nodup.of_map _ h1) (List.Nodup.of_map _ h2)]
  intro p
  exact ⟨half l1 l2 h2 p1 h1 he p, half l2 l1 h1 p2 h2 (fun k => (he k).symm) p⟩

theorem Result_congr_state (Format : Time → String)
    (sort : List DateRangeFacet → List DateRangeFacet) (x y : DateTimeFacetBuilder)
    (iter : List (String × Int)) (h1 : x.ranges = y.ranges) (h2 : x.size = y.size)
    (h3 : x.field = y.field) (h4 : x.total = y.total) (h5 : x.missing = y.missing) :
    Result Format sort x iter = Result Format sort y iter := by
  unfold Result
  rw [h1, h2, h3, h4, h5]

/-- C13: two builders set up with the same field, size and ranges, fed the
document sequences `A` and `B` and merged by summing per-range counts, `total`
and `missing`, hold the same per-range counts, `total` and `missing` as one
such builder fed `A` followed by `B`; the two states store the same entries,
and `Result` returns the same on both for every enumeration of them. -/
theorem merge_law (pc : PrefixCoded) (field : String) (size : Int)
    (rs : List (String × Time × Time)) (A B : List (String → Option (List String))) :
    (∀ name, countOf (merge (runDocs pc (configure field size rs) A)
          (runDocs pc (configure field size rs) B)) name =
        countOf (runDocs pc (configure field size rs) A) name +
          countOf (runDocs pc (configure field size rs) B) name) ∧
      (∀ name, countOf (merge (runDocs pc (configure field size rs) A)
          (runDocs pc (configure field size rs) B)) name =
        countOf (runDocs pc (configure field size rs) (A ++ B)) name) ∧
      (merge (runDocs pc (configure field size rs) A)
          (runDocs pc (configure field size rs) B)).total =
        (runDocs pc (configure field size rs) (A ++ B)).total ∧
      (merge (runDocs pc (configure field size rs) A)
          (runDocs pc (configure field size rs) B)).missing =
        (runDocs pc (configure field size rs) (A ++ B)).missing ∧
      (merge (runDocs pc (configure field size rs) A)
          (runDocs pc (configure field size rs) B)).termsCount.Perm
        (runDocs pc (configure field size rs) (A ++ B)).termsCount ∧
      ∀ (Format : Time → String) (sort : List DateRangeFacet → List DateRangeFacet)
        (iter : List (String × Int)),
        Result Format sort (merge (runDocs pc (configure field size rs) A)
            (runDocs pc (configure field size rs) B)) iter =
          Result Format sort (runDocs pc (configure field size rs) (A ++ B)) iter := by
  obtain ⟨hreach0, htc0, htot0, hmiss0, _, _⟩ :=
    registerAll_spec pc rs (NewDateTimeFacetBuilder field size) (Reachable.new field size)
  have hcfg : configure field size rs =
      registerAll (NewDateTimeFacetBuilder field size) rs := rfl
  rw [← hcfg] at hreach0 htc0 htot0 hmiss0
  generalize configure field size rs = fb0 at hreach0 htc0 htot0 hmiss0 ⊢
  have hnd0 : (keys fb0.ranges).Nodup := (Inv_of_Reachable pc fb0 hreach0).1.2
  have hcount0 : ∀ name, countOf fb0 name = 0 := by
    intro name
    simp [countOf, htc0, NewDateTimeFacetBuilder, getList]
  have htot0z : fb0.total = 0 := by rw [htot0]; rfl
  have hmiss0z : fb0.missing = 0 := by rw [hmiss0]; rfl
  obtain ⟨fa1, fa2, fa3⟩ := runDocs_frame pc A fb0
  obtain ⟨fb1, fb2, fb3⟩ := runDocs_frame pc B fb0
  obtain ⟨fc1, fc2, fc3⟩ := runDocs_frame pc (A ++ B) fb0
  obtain ⟨a1, a2, a3⟩ := runDocs_add pc A fb0 hnd0
  obtain ⟨b1, b2, b3⟩ := runDocs_add pc B fb0 hnd0
  obtain ⟨c1, c2, c3⟩ := runDocs_add pc B (runDocs pc fb0 A) (by rw [fa3]; exact hnd0)
  rw [fa2, fa3] at c1 c2
  rw [fa2] at c3
  rw [← runDocs_append] at c1 c2 c3
  have hInvA := Inv_of_Reachable pc _ (Reachable_runDocs pc A fb0 hreach0)
  have hInvB := Inv_of_Reachable pc _ (Reachable_runDocs pc B fb0 hreach0)
  have hInvC := Inv_of_Reachable pc _ (Reachable_runDocs pc (A ++ B) fb0 hreach0)
  have hsum : ∀ name, countOf (merge (runDocs pc fb0 A) (runDocs pc fb0 B)) name =
      countOf (runDocs pc fb0 A) name + countOf (runDocs pc fb0 B) name := by
    intro name
    exact getD_mergeCounts name _ _ hInvB.1.1
  have hseq : ∀ name, countOf (merge (runDocs pc fb0 A) (runDocs pc fb0 B)) name =
      countOf (runDocs pc fb0 (A ++ B)) name := by
    intro name
    rw [hsum name, c1 name, b1 name, hcount0 name]
    ring
  have htotal : (merge (runDocs pc fb0 A) (runDocs pc fb0 B)).total =
      (runDocs pc fb0 (A ++ B)).total := by
    show (runDocs pc fb0 A).total + (runDocs pc fb0 B).total = _
    rw [c2, b2, htot0z]
    ring
  have hmissing : (merge (runDocs pc fb0 A) (runDocs pc fb0 B)).missing =
      (runDocs pc fb0 (A ++ B)).missing := by
    show (runDocs pc fb0 A).missing + (runDocs pc fb0 B).missing = _
    rw [c3, b3, hmiss0z]
    ring
  refine ⟨hsum, hseq, htotal, hmissing, ?_, ?_⟩
  · exact perm_of_reads_eq _ _ (nodup_keys_mergeCounts _ _ hInvA.1.1) hInvC.1.1
      (mergeCounts_pos _ _ hInvA.2.2.1 hInvB.2.2.1) hInvC.2.2.1 hseq
  · intro Format sort iter
    apply Result_congr_state
    · show (runDocs pc fb0 A).ranges = _
      rw [fa3, fc3]
    · show (runDocs pc fb0 A).size = _
      rw [fa1, fc1]
    · show (runDocs pc fb0 A).field = _
      rw [fa2, fc2]
    · exact htotal
    · exact hmissing

/-! ## The worked scenario -/

/-- The order in which documents are fed does not matter to what the builder
holds. -/
theorem runDocs_perm (pc : PrefixCoded) (fb : DateTimeFacetBuilder)
    (docs1 docs2 : List (String → Option (List String))) (hr : Reachable pc fb)
    (hp : docs1.Perm docs2) :
    (runDocs pc fb docs1).termsCount.Perm (runDocs pc fb docs2).termsCount ∧
      (runDocs pc fb docs1).total = (runDocs pc fb docs2).total ∧
      (runDocs pc fb docs1).missing = (runDocs pc fb docs2).missing := by
  have hnd : (keys fb.ranges).Nodup := (Inv_of_Reachable pc fb hr).1.2
  obtain ⟨a1, a2, a3⟩ := runDocs_add pc docs1 fb hnd
  obtain ⟨b1, b2, b3⟩ := runDocs_add pc docs2 fb hnd
  have hI1 := Inv_of_Reachable pc _ (Reachable_runDocs pc docs1 fb hr)
  have hI2 := Inv_of_Reachable pc _ (Reachable_runDocs pc docs2 fb hr)
  refine ⟨?_, ?_, ?_⟩
  · apply perm_of_reads_eq _ _ hI1.1.1 hI2.1.1 hI1.2.2.1 hI2.2.2.1
    intro k
    have e1 := a1 k
    have e2 := b1 k
    unfold countOf at e1 e2
    rw [e1, e2, (hp.map _).sum_eq]
  · rw [a2, b2, (hp.map _).sum_eq]
  · rw [a3, b3, (hp.map _).sum_eq]

theorem Update_single_value (pc : PrefixCoded) (fb : DateTimeFacetBuilder)
    (ft : String → Option (List String)) (v : String) (i : Int)
    (hd : ft fb.field = some [v]) (hS : pc.Shift v = some 0) (hI : pc.Int64 v = some i) :
    Update pc fb ft = rangeLoop (Time.Unix 0 i) fb.ranges fb := by
  simp [Update, hd, termLoop, termStep, hS, hI]

/-- The state of the scenario after its four documents, fed in the order
listed. -/
theorem scenario_state (pc : PrefixCoded) (field : String) (N : Int)
    (d1 d2 d3 dm : String → Option (List String)) (v1 v2 v3 : String)
    (hd1 : d1 field = some [v1]) (hd2 : d2 field = some [v2]) (hd3 : d3 field = some [v3])
    (hdm : dm field = none)
    (hS1 : pc.Shift v1 = some 0) (hI1 : pc.Int64 v1 = some (Time.Date 2019 5 1).UnixNano)
    (hS2 : pc.Shift v2 = some 0) (hI2 : pc.Int64 v2 = some (Time.Date 2020 6 1).UnixNano)
    (hS3 : pc.Shift v3 = some 0) (hI3 : pc.Int64 v3 = some (Time.Date 2020 7 1).UnixNano) :
    runDocs pc (scenarioBuilder field N) [d1, d2, d3, dm] =
      scenarioState field N [("old", 1), ("new", 2)] 3 1 := by
  have e1 : Update pc (scenarioBuilder field N) d1 =
      scenarioState field N [("old", 1)] 1 0 := by
    rw [Update_single_value pc _ d1 v1 _ hd1 hS1 hI1]
    rfl
  have e2 : Update pc (scenarioState field N [("old", 1)] 1 0) d2 =
      scenarioState field N [("old", 1), ("new", 1)] 2 0 := by
    rw [Update_single_value pc _ d2 v2 _ hd2 hS2 hI2]
    rfl
  have e3 : Update pc (scenarioState field N [("old", 1), ("new", 1)] 2 0) d3 =
      scenarioState field N [("old", 1), ("new", 2)] 3 0 := by
    rw [Update_single_value pc _ d3 v3 _ hd3 hS3 hI3]
    rfl
  have e4 : Update pc (scenarioState field N [("old", 1), ("new", 2)] 3 0) dm =
      scenarioState field N [("old", 1), ("new", 2)] 3 1 := by
    have h : dm (scenarioState field N [("old", 1), ("new", 2)] 3 0).field = none := hdm
    simp only [Update, h]
    rfl
  simp only [runDocs, List.foldl, e1, e2, e3, e4]

/-- What `Result` returns on the final state of the scenario, for the
insertion sort and the stored enumeration order. -/
theorem scenario_Result (Format : Time → String) (field : String) (N : Int) (hN : 2 ≤ N) :
    Result Format insertionSort (scenarioState field N [("old", 1), ("new", 2)] 3 1)
        [("old", 1), ("new", 2)] =
      .ok { Field := field, Total := 3, Missing := 1, Other := 0,
            DateRanges :=
              [{ Name := "new", Start := some (Format (Time.Date 2020 1 1)), End := none,
                 Count := 2 },
               { Name := "old", Start := none, End := some (Format (Time.Date 2020 1 1)),
                 Count := 1 }] } := by
  have hc : candidates Format (scenarioState field N [("old", 1), ("new", 2)] 3 1).ranges
      [("old", 1), ("new", 2)] =
      .ok [{ Name := "old", Start := none, End := some (Format (Time.Date 2020 1 1)),
             Count := 1 },
           { Name := "new", Start := some (Format (Time.Date 2020 1 1)), End := none,
             Count := 2 }] := rfl
  rw [Result_eq Format insertionSort _ _ _ hc]
  have h0 : ¬ (scenarioState field N [("old", 1), ("new", 2)] 3 1).size < 0 := by
    show ¬ N < 0
    omega
  rw [if_neg h0]
  have hsort : insertionSort
      [{ Name := "old", Start := none, End := some (Format (Time.Date 2020 1 1)),
         Count := 1 },
       { Name := "new", Start := some (Format (Time.Date 2020 1 1)), End := none,
         Count := 2 }] =
      [{ Name := "new", Start := some (Format (Time.Date 2020 1 1)), End := none,
         Count := 2 },
       { Name := "old", Start := none, End := some (Format (Time.Date 2020 1 1)),
         Count := 1 }] := rfl
  rw [hsort]
  have htake : (scenarioState field N [("old", 1), ("new", 2)] 3 1).size.toNat = N.toNat := rfl
  have h2 : 2 ≤ N.toNat := by omega
  rw [htake, List.take_of_length_le (by simpa using h2)]
  rfl

theorem scenarioBuilder_reachable (pc : PrefixCoded) (field : String) (N : Int) :
    Reachable pc (scenarioBuilder field N) :=
  Reachable.addRange "new" (Time.Date 2020 1 1) zeroTime
    (Reachable.addRange "old" zeroTime (Time.Date 2020 1 1) (Reachable.new field N))

/-- C15: a fresh builder of size `N ≥ 2` with the ranges `old` (unbounded up to
2020-01-01T00:00:00Z) and `new` (from 2020-01-01T00:00:00Z on), updated in any
order with three documents whose single shift-0 values decode to 2019-05-01,
2020-06-01 and 2020-07-01 (midnight UTC) and one document without the field,
returns `missing = 1`, `total = 3`, `other = 0` and the list `new` (count 2)
followed by `old` (count 1), for every enumeration order of the map and every
sort. -/
theorem scenario_old_new (pc : PrefixCoded) (Format : Time → String)
    (sort : List DateRangeFacet → List DateRangeFacet) (field : String) (N : Int)
    (d1 d2 d3 dm : String → Option (List String)) (v1 v2 v3 : String)
    (docs : List (String → Option (List String))) (iter : List (String × Int))
    (hN : 2 ≤ N) (hs : IsSort sort)
    (hd1 : d1 field = some [v1]) (hd2 : d2 field = some [v2]) (hd3 : d3 field = some [v3])
    (hdm : dm field = none)
    (hS1 : pc.Shift v1 = some 0) (hI1 : pc.Int64 v1 = some (Time.Date 2019 5 1).UnixNano)
    (hS2 : pc.Shift v2 = some 0) (hI2 : pc.Int64 v2 = some (Time.Date 2020 6 1).UnixNano)
    (hS3 : pc.Shift v3 = some 0) (hI3 : pc.Int64 v3 = some (Time.Date 2020 7 1).UnixNano)
    (hdocs : docs.Perm [d1, d2, d3, dm])
    (hi : iter.Perm (runDocs pc (scenarioBuilder field N) docs).termsCount) :
    Result Format sort (runDocs pc (scenarioBuilder field N) docs) iter =
      .ok { Field := field, Total := 3, Missing := 1, Other := 0,
            DateRanges :=
              [{ Name := "new", Start := some (Format (Time.Date 2020 1 1)), End := none,
                 Count := 2 },
               { Name := "old", Start := none, End := some (Format (Time.Date 2020 1 1)),
                 Count := 1 }] } := by
  have hr0 := scenarioBuilder_reachable pc field N
  obtain ⟨p1, p2, p3⟩ := runDocs_perm pc (scenarioBuilder field N) docs [d1, d2, d3, dm] hr0 hdocs
  obtain ⟨f1, f2, f3⟩ := runDocs_frame pc docs (scenarioBuilder field N)
  obtain ⟨g1, g2, g3⟩ := runDocs_frame pc [d1, d2, d3, dm] (scenarioBuilder field N)
  have hst := scenario_state pc field N d1 d2 d3 dm v1 v2 v3 hd1 hd2 hd3 hdm hS1 hI1 hS2 hI2
    hS3 hI3
  have hr : Reachable pc (scenarioState field N [("old", 1), ("new", 2)] 3 1) := by
    rw [← hst]
    exact Reachable_runDocs pc _ _ hr0
  rw [hst] at p1 p2 p3 g1 g2 g3
  rw [Result_congr_state Format sort (runDocs pc (scenarioBuilder field N) docs)
    (scenarioState field N [("old", 1), ("new", 2)] 3 1) iter (f3.trans g3.symm)
    (f1.trans g1.symm) (f2.trans g2.symm) p2 p3]
  rw [Result_unique pc Format insertionSort sort
    (scenarioState field N [("old", 1), ("new", 2)] 3 1) [("old", 1), ("new", 2)] iter hr
    insertionSort_isSort hs (List.Perm.refl _) (hi.trans p1)]
  exact scenario_Result Format field N hN

/-- C15 with size 2, the documents in the order listed and a decoder that
reads the dates from the terms. -/
theorem scenario_old_new_witness :
    (2 : Int) ≤ 2 ∧ IsSort insertionSort ∧
      dateDoc "2019-05-01" "date" = some ["2019-05-01"] ∧ sampleDocOther "date" = none ∧
      scenarioCodec.Shift "2019-05-01" = some 0 ∧
      scenarioCodec.Int64 "2019-05-01" = some (Time.Date 2019 5 1).UnixNano ∧
      Result sampleFormat insertionSort
          (runDocs scenarioCodec (scenarioBuilder "date" 2)
            [dateDoc "2019-05-01", dateDoc "2020-06-01", dateDoc "2020-07-01", sampleDocOther])
          [("new", 2), ("old", 1)] =
        .ok { Field := "date", Total := 3, Missing := 1, Other := 0,
              DateRanges :=
                [{ Name := "new", Start := some (sampleFormat (Time.Date 2020 1 1)),
                   End := none, Count := 2 },
                 { Name := "old", Start := none,
                   End := some (sampleFormat (Time.Date 2020 1 1)), Count := 1 }] } :=
  ⟨by decide, insertionSort_isSort, by decide, by decide, by decide, by decide,
    scenario_old_new scenarioCodec sampleFormat insertionSort "date" 2
      (dateDoc "2019-05-01") (dateDoc "2020-06-01") (dateDoc "2020-07-01") sampleDocOther
      "2019-05-01" "2020-06-01" "2020-07-01" _ [("new", 2), ("old", 1)]
      (by decide) insertionSort_isSort (by decide) (by decide) (by decide) (by decide)
      (by decide) (by decide) (by decide) (by decide) (by decide) (by decide)
      (List.Perm.refl _) (by decide)⟩

end Facets

namespace Query

/-- C20: `NewDocIDQuery ids` holds exactly `ids`, in order, and no boost;
`SetBoost b` makes the boost `b` (as a `Boost`) and keeps the identifiers, and
a later `SetBoost` replaces the boost of an earlier one. -/
theorem NewDocIDQuery_SetBoost {B : Type} (toBoost : Float → B) (ids : List String) :
    (NewDocIDQuery ids : DocIDQuery B).IDs = ids ∧
      (NewDocIDQuery ids : DocIDQuery B).Boost = none ∧
      (∀ (q : DocIDQuery B) (b : Float),
        (q.SetBoost toBoost b).Boost = some (toBoost b) ∧ (q.SetBoost toBoost b).IDs = q.IDs) ∧
      (∀ (q : DocIDQuery B) (b1 b2 : Float),
        (q.SetBoost toBoost b1).SetBoost toBoost b2 = q.SetBoost toBoost b2) ∧
      ∀ b : Float, ((NewDocIDQuery ids : DocIDQuery B).SetBoost toBoost b).IDs = ids ∧
        ((NewDocIDQuery ids : DocIDQuery B).SetBoost toBoost b).Boost = some (toBoost b) :=
  ⟨rfl, rfl, fun _ _ => ⟨rfl, rfl⟩, fun _ _ _ => rfl, fun _ => ⟨rfl, rfl⟩⟩

end Query
